import Mathlib

/-!
Shallow embedding of `src/src/hooks/markdownSourceMap.js` (a markdown-it
plugin that builds a source-line → identifier map while rendering), together
with the parts of markdown-it's renderer that the plugin patches
(`renderAttrs`, `renderToken`, the default `text`, `softbreak` and `fence`
rules, and the render driver).  Identifier minting (`randomLineId`, an opaque
random digit string in the source) is modelled by a deterministic counter in
the render environment; each mint yields `Nat.repr` of the counter and bumps
it, which preserves exactly the property the source relies on: every mint is
a fresh, opaque string.

The rendered output is modelled as a list of `Chunk`s — literal text plus
dedicated chunks for the reserved identifier attribute — whose flattening is
the exact output string; this lets "stripping all identifier attributes" be
stated precisely.
-/

namespace MystSourceMap

/-- The reserved attribute key (`SRC_LINE_ID` in the source). -/
def SRC_LINE_ID : String := "data-line-id"

/-- markdown-it `escapeHtml` on one character. -/
def escapeChar (c : Char) : List Char :=
  if c = '&' then "&amp;".data
  else if c = '<' then "&lt;".data
  else if c = '>' then "&gt;".data
  else if c = '"' then "&quot;".data
  else [c]

/-- markdown-it `escapeHtml`. -/
def escapeHtml (s : String) : String :=
  String.mk ((s.data.map escapeChar).flatten)

/-- JS `String.prototype.split("\n")` on a character list.  Always returns at
least one (possibly empty) segment, like its JS counterpart. -/
def splitNl : List Char → List (List Char)
  | [] => [[]]
  | c :: rest =>
    match splitNl rest with
    | [] => [[c]]
    | l :: ls => if c = '\n' then [] :: l :: ls else (c :: l) :: ls

/-- JS `s.split("\n")` on strings. -/
def splitOnNl (s : String) : List String := (splitNl s.data).map String.mk

/-- JS `String.prototype.startsWith`. -/
def strStartsWith (s pre : String) : Bool := pre.data.isPrefixOf s.data

/-- JS `Array.prototype.join(sep)`. -/
def joinSep {α : Type} (sep : List α) : List (List α) → List α
  | [] => []
  | [x] => x
  | x :: y :: rest => x ++ sep ++ joinSep sep (y :: rest)

/-- JS `Array.prototype.join(sep)` producing a string. -/
def joinSepStr (sep : String) : List String → String
  | [] => ""
  | [x] => x
  | x :: y :: rest => x ++ sep ++ joinSepStr sep (y :: rest)

/-- A piece of rendered output: literal markup, or one occurrence of the
reserved identifier attribute (rendered as ` data-line-id="<id>"`). -/
inductive Chunk where
  | lit (s : String)
  | idAttr (id : String)
deriving DecidableEq

/-- The text a chunk contributes to the output string.  An identifier chunk
renders exactly as markdown-it `renderAttrs` renders that one attribute. -/
def Chunk.str : Chunk → String
  | .lit s => s
  | .idAttr id => " " ++ escapeHtml SRC_LINE_ID ++ "=\"" ++ escapeHtml id ++ "\""

/-- Whether a chunk is an identifier attribute. -/
def Chunk.isId : Chunk → Bool
  | .lit _ => false
  | .idAttr _ => true

/-- The output string of a chunk list. -/
def flatten : List Chunk → String
  | [] => ""
  | c :: cs => c.str ++ flatten cs

/-- Stripping every identifier attribute from the rendered output. -/
def stripIdAttrs (cs : List Chunk) : String :=
  flatten (cs.filter fun c => ¬ c.isId)

/-- markdown-it `Renderer.renderAttrs`, with the reserved identifier
attribute kept as its own chunk. -/
def renderAttrsChunks (attrs : List (String × String)) : List Chunk :=
  attrs.map fun kv =>
    if kv.1 = SRC_LINE_ID then Chunk.idAttr kv.2
    else Chunk.lit (" " ++ escapeHtml kv.1 ++ "=\"" ++ escapeHtml kv.2 ++ "\"")

/-- markdown-it `Renderer.renderAttrs` as a plain string. -/
def renderAttrsStr : List (String × String) → String
  | [] => ""
  | kv :: rest =>
    " " ++ escapeHtml kv.1 ++ "=\"" ++ escapeHtml kv.2 ++ "\""
      ++ renderAttrsStr rest

/-- A markdown-it token: kind, html tag, nesting (+1 open / 0 self-closing /
-1 close), block flag, optional source span `[startLine, endLine)`, optional
children (inline tokens), mutable attribute bag, raw content. -/
inductive Token where
  | mk (type : String) (tag : String) (nesting : Int) (block : Bool)
       (map : Option (Nat × Nat)) (children : Option (List Token))
       (attrs : List (String × String)) (content : String)

def Token.type : Token → String
  | .mk ty _ _ _ _ _ _ _ => ty

def Token.tag : Token → String
  | .mk _ tg _ _ _ _ _ _ => tg

def Token.nesting : Token → Int
  | .mk _ _ n _ _ _ _ _ => n

def Token.block : Token → Bool
  | .mk _ _ _ b _ _ _ _ => b

def Token.map : Token → Option (Nat × Nat)
  | .mk _ _ _ _ m _ _ _ => m

def Token.children : Token → Option (List Token)
  | .mk _ _ _ _ _ cs _ _ => cs

def Token.attrs : Token → List (String × String)
  | .mk _ _ _ _ _ _ a _ => a

def Token.content : Token → String
  | .mk _ _ _ _ _ _ _ c => c

/-- `childToken.map = [...]` (the only mutation the children walk performs). -/
def Token.setMap : Token → Option (Nat × Nat) → Token
  | .mk ty tg n b _ cs a c, m => .mk ty tg n b m cs a c

/-- Replace a token's attribute bag. -/
def Token.setAttrs : Token → List (String × String) → Token
  | .mk ty tg n b m cs _ c, a => .mk ty tg n b m cs a c

/-- Replace a token's children. -/
def Token.setChildren : Token → Option (List Token) → Token
  | .mk ty tg n b m _ a c, cs => .mk ty tg n b m cs a c

/-- The render pass context: `env.startLine`, `env.chunkId`,
`env.lineMap.current`, plus the identifier-minting counter that models
`randomLineId`. -/
structure Env where
  startLine : Nat
  chunkId : Nat
  lineMap : List (Int × String)
  nextId : Nat
deriving DecidableEq

/-- Update an existing entry in place, else append (the shared behaviour of
JS `Map.prototype.set` and markdown-it `Token.attrSet`). -/
def jsSet {κ : Type} [DecidableEq κ] (m : List (κ × String)) (k : κ)
    (v : String) : List (κ × String) :=
  if m.any (fun p => p.1 = k) then
    m.map (fun p => if p.1 = k then (k, v) else p)
  else m ++ [(k, v)]

/-- Key lookup (JS `Map.prototype.get`, markdown-it `attrGet`). -/
def jsGet {κ : Type} [DecidableEq κ] (m : List (κ × String)) (k : κ) :
    Option String :=
  (m.find? (fun p => p.1 = k)).map Prod.snd

/-- JS `Map.prototype.set` on the Line Map. -/
def mapSet (m : List (Int × String)) (k : Int) (v : String) :
    List (Int × String) := jsSet m k v

/-- JS `Map.prototype.get` on the Line Map. -/
def mapGet (m : List (Int × String)) (k : Int) : Option String := jsGet m k

/-- markdown-it `Token.attrSet`: replace the attribute if the key is already
present, else push it. -/
def attrSet (attrs : List (String × String)) (k v : String) :
    List (String × String) := jsSet attrs k v

/-- Look an attribute up by key. -/
def attrGet (attrs : List (String × String)) (k : String) : Option String :=
  jsGet attrs k

/-- The inline-bearing container kinds (`inlineContainers` in the source). -/
def inlineContainers : List String := ["paragraph_open", "heading_open"]

/-- `excludeRules` in the source. -/
def excludeRules : List String := ["softbreak"]

/-- `overrideRules` as built by `markdownSourceMap`: every registered rule
key except the excluded ones, plus four fixed container-open kinds. -/
def mkOverrideRules (ruleKeys : List String) : List String :=
  ruleKeys.filter (fun r => ¬ excludeRules.contains r) ++
    ["paragraph_open", "heading_open", "admonition_open", "link_open"]

/-- The renderer-rule registry at installation time, restricted to the rule
kinds this model implements (after `overrideDefaultDirectives`,
`wrapTextInSpan` and `wrapFencedLinesInSpan` have registered theirs). -/
def registryKeys : List String :=
  ["fence", "softbreak", "text", "directive", "directive_error"]

/-- The concrete override list for the modelled registry. -/
def overrideRules : List String := mkOverrideRules registryKeys

/-- The absolute line of a relative span start:
`map[0] + env.startLine - (env.chunkId !== 0)`. -/
def absLine (s : Nat) (env : Env) : Int :=
  (s : Int) + (env.startLine : Int) - (if env.chunkId ≠ 0 then 1 else 0)

/-- The children walk of the inline-container branch of
`addLineNumberToTokens`: `k` is `lineInParagraph`, `used` is `lineUsed`, `m`
is the container's span (`tokens[idx].map`, only read when a child is
claimed, and a JS error — `none` — if it is absent then). -/
def walkChildren (m : Option (Nat × Nat)) (k : Nat) (used : Bool) :
    List Token → Option (List Token)
  | [] => some []
  | c :: rest =>
    if c.type = "softbreak" then
      (walkChildren m (k + 1) false rest).map (c :: ·)
    else if used then
      (walkChildren m k used rest).map (c :: ·)
    else
      match m with
      | none => none
      | some s =>
        (walkChildren m k true rest).map
          ((c.setMap (some (s.1 + k, s.1 + k + 1))) :: ·)

/-- The annotation phase of the wrapped rule (`addLineNumberToTokens` before
it delegates): the current token is `t`, the remainder of the stream starting
at `idx + 1` is `rest`.  Returns the (possibly updated) token, the (possibly
updated) remainder, and the new environment; `none` models a thrown JS
`TypeError` (missing successor, missing children, missing container span). -/
def addLineNumberToTokens (t : Token) (rest : List Token) (env : Env) :
    Option (Token × List Token × Env) :=
  if inlineContainers.contains t.type then
    match rest with
    | [] => none
    | succ :: rest2 =>
      match succ.children with
      | none => none
      | some cs =>
        (walkChildren t.map 0 false cs).map fun cs2 =>
          (t, succ.setChildren (some cs2) :: rest2, env)
  else
    match t.map with
    | some s =>
      let line := absLine s.1 env
      let id := Nat.repr env.nextId
      some (t.setAttrs (attrSet t.attrs SRC_LINE_ID id), rest,
        { env with
          nextId := env.nextId + 1
          lineMap := mapSet env.lineMap line id })
    | none => some (t, rest, env)

/-- markdown-it's default `fence` rule output (no language, no highlighter),
as sniffed and re-used by `wrapFencedLinesInSpan`. -/
def defaultFence (t : Token) : String :=
  "<pre><code" ++ renderAttrsStr t.attrs ++ ">" ++ escapeHtml t.content
    ++ "</code></pre>\n"

/-- The indexed filter `((_, i, lines) => i !== lines.length - 1)` used on
the split content lines. -/
def dropLastIdx (l : List String) : List String :=
  (l.enum.filter (fun p => p.1 ≠ l.length - 1)).map Prod.snd

/-- The per-line wrapping loop of `wrapFencedLinesInSpan`: each kept line
gets a fresh identifier, a Line Map write at `startLine + i + 1`, and a
`<span data-line-id="...">` wrapper. -/
def wrapLines (startLine : Int) : List String → Nat → Env →
    List (List Chunk) × Env
  | [], _, env => ([], env)
  | l :: rest, i, env =>
    let id := Nat.repr env.nextId
    let env2 := { env with
      nextId := env.nextId + 1
      lineMap := mapSet env.lineMap (startLine + i + 1) id }
    let r := wrapLines startLine rest (i + 1) env2
    ([Chunk.lit "<span", Chunk.idAttr id, Chunk.lit ">", Chunk.lit l,
      Chunk.lit "</span>"] :: r.1, r.2)

/-- `html.slice(0, i) ++ extra ++ html.slice(i)` where
`i = html.indexOf(">")`, with JS semantics for `i = -1`. -/
def spliceAt (html : String) (extra : List Chunk) : List Chunk :=
  match html.data.findIdx? (fun c => c = '>') with
  | some i =>
    [Chunk.lit (String.mk (html.data.take i))] ++ extra
      ++ [Chunk.lit (String.mk (html.data.drop i))]
  | none =>
    [Chunk.lit (String.mk html.data.dropLast)] ++ extra
      ++ [Chunk.lit (String.mk (html.data.drop (html.data.length - 1)))]

/-- `wrapFencedLinesInSpan`'s patched `fence` rule, parameterised by the
unmodified rule's output.  A non-verbatim extension output (not starting
with `<pre`) only has the token attributes spliced into its opening tag;
a true verbatim block is rebuilt line by line.  `none` models the JS error
of reading `token.map[0]` when the span is absent. -/
def wrapFencedLinesInSpan (defaultOutput : String) (t : Token) (env : Env) :
    Option (List Chunk × Env) :=
  if ¬ strStartsWith defaultOutput "<pre" then
    some (spliceAt defaultOutput (Chunk.lit " " :: renderAttrsChunks t.attrs),
          env)
  else
    match t.map with
    | none => none
    | some s =>
      let startLine := absLine s.1 env
      let lines := splitOnNl (escapeHtml t.content)
      let r := wrapLines startLine (dropLastIdx lines) 0 env
      some ([Chunk.lit "<pre><code"] ++ renderAttrsChunks t.attrs
        ++ [Chunk.lit ">"] ++ joinSep [Chunk.lit "\n"] r.1
        ++ [Chunk.lit "</code></pre>\n"], r.2)

/-- Modelled from the spec: the generic directive renderer and its error
fallback are supplied by an extension outside `src/`; they render an opening
tag, the body, a closing tag, and omit the token attributes. -/
def defaultDirectiveRule (t : Token) : String :=
  "<aside>" ++ escapeHtml t.content ++ "</aside>\n"

/-- `overrideDefaultDirectives`' `newRule`: run the original rule, then
splice `renderAttrs(token)` in immediately before the first `>`. -/
def directiveNewRule (defaultOutput : String) (t : Token) : List Chunk :=
  spliceAt defaultOutput (renderAttrsChunks t.attrs)

/-- `wrapTextInSpan`'s patched `text` rule: the default output
(`escapeHtml(content)`) wrapped in a span carrying the token's attributes. -/
def textRule (t : Token) : List Chunk :=
  [Chunk.lit "<span"] ++ renderAttrsChunks t.attrs
    ++ [Chunk.lit ">", Chunk.lit (escapeHtml t.content), Chunk.lit "</span>"]

/-- The trailing-newline decision of markdown-it `Renderer.renderToken`
(visible tokens, default options). -/
def needLf (t : Token) (next : Option Token) : Bool :=
  t.block &&
    !(t.nesting == 1 && (match next with
      | some n => n.type == "inline" || (n.nesting == -1 && n.tag == t.tag)
      | none => false))

/-- markdown-it `Renderer.renderToken` (visible tokens, default options). -/
def renderTokenChunks (t : Token) (next : Option Token) : List Chunk :=
  [Chunk.lit ((if t.nesting == -1 then "</" else "<") ++ t.tag)]
    ++ renderAttrsChunks t.attrs
    ++ [Chunk.lit (if needLf t next then ">\n" else ">")]

/-- Dispatch to the (adapted) registered rule for a token kind, or to
default `renderToken` rendering when no rule exists. -/
def runRule (t : Token) (next : Option Token) (env : Env) :
    Option (List Chunk × Env) :=
  if t.type = "text" then some (textRule t, env)
  else if t.type = "fence" then wrapFencedLinesInSpan (defaultFence t) t env
  else if t.type = "directive" ∨ t.type = "directive_error" then
    some (directiveNewRule (defaultDirectiveRule t) t, env)
  else if t.type = "softbreak" then some ([Chunk.lit "\n"], env)
  else some (renderTokenChunks t next, env)

/-- One render-loop step for one token: annotate first when the kind is in
`overrideRules` (the interception layer), then run its rule. -/
def renderStep (t : Token) (rest : List Token) (env : Env) :
    Option (List Chunk × List Token × Env) :=
  if overrideRules.contains t.type then
    match addLineNumberToTokens t rest env with
    | none => none
    | some (t2, rest2, env2) =>
      match runRule t2 rest2.head? env2 with
      | none => none
      | some (out, env3) => some (out, rest2, env3)
  else
    match runRule t rest.head? env with
    | none => none
    | some (out, env2) => some (out, rest, env2)

/-- markdown-it `Renderer.renderInline` over the children of an inline
token.  The fuel equals the number of children (each step consumes one). -/
def renderInlineList : Nat → List Token → Env → Option (Env × List Chunk)
  | _, [], env => some (env, [])
  | 0, _ :: _, _ => none
  | fuel + 1, c :: rest, env =>
    match renderStep c rest env with
    | none => none
    | some (out, rest2, env2) =>
      match renderInlineList fuel rest2 env2 with
      | none => none
      | some (env3, outs) => some (env3, out ++ outs)

/-- markdown-it `Renderer.render`'s token loop: `inline` tokens render their
children, everything else goes through the (possibly wrapped) rules. -/
def renderTokens : Nat → List Token → Env → Option (Env × List Chunk)
  | _, [], env => some (env, [])
  | 0, _ :: _, _ => none
  | fuel + 1, t :: rest, env =>
    if t.type = "inline" then
      match t.children with
      | none => none
      | some cs =>
        match renderInlineList cs.length cs env with
        | none => none
        | some (env2, out) =>
          match renderTokens fuel rest env2 with
          | none => none
          | some (env3, outs) => some (env3, out ++ outs)
    else
      match renderStep t rest env with
      | none => none
      | some (out, rest2, env2) =>
        match renderTokens fuel rest2 env2 with
        | none => none
        | some (env3, outs) => some (env3, out ++ outs)

/-- A full render pass over a token stream. -/
def render (ts : List Token) (env : Env) : Option (Env × List Chunk) :=
  renderTokens ts.length ts env

/-! ### Spec-side definitions

Comparison pipelines and descriptive helpers used only to *state* claims;
they follow the spec's words, not the source. -/

/-- markdown-it `Renderer.renderToken` as a plain string (used by the
comparison pipelines). -/
def renderTokenStr (t : Token) (next : Option Token) : String :=
  ((if t.nesting == -1 then "</" else "<") ++ t.tag)
    ++ renderAttrsStr t.attrs
    ++ (if needLf t next then ">\n" else ">")

/-- String-level splice before the first `>` (JS semantics, as `spliceAt`). -/
def spliceAtStr (html : String) (extra : String) : String :=
  match html.data.findIdx? (fun c => c = '>') with
  | some i => String.mk (html.data.take i) ++ extra ++ String.mk (html.data.drop i)
  | none =>
    String.mk html.data.dropLast ++ extra
      ++ String.mk (html.data.drop (html.data.length - 1))

/-- Modelled from the spec (round-trip property, amended): the same pipeline
with the span-wrapping adapters and the directive patcher installed, but with
no identifier annotation — what stripping every identifier attribute from the
annotated output should reproduce. -/
def plainRule (t : Token) (next : Option Token) : String :=
  if t.type = "text" then
    "<span" ++ renderAttrsStr t.attrs ++ ">" ++ escapeHtml t.content ++ "</span>"
  else if t.type = "fence" then
    "<pre><code" ++ renderAttrsStr t.attrs ++ ">"
      ++ joinSepStr "\n"
           ((dropLastIdx (splitOnNl (escapeHtml t.content))).map
             (fun l => "<span>" ++ l ++ "</span>"))
      ++ "</code></pre>\n"
  else if t.type = "directive" ∨ t.type = "directive_error" then
    spliceAtStr (defaultDirectiveRule t) (renderAttrsStr t.attrs)
  else if t.type = "softbreak" then "\n"
  else renderTokenStr t next

/-- The comparison pipeline over an inline token's children. -/
def plainInlineList : List Token → String
  | [] => ""
  | c :: rest => plainRule c rest.head? ++ plainInlineList rest

/-- The comparison pipeline over a token stream. -/
def plainTokens : List Token → String
  | [] => ""
  | t :: rest =>
    (if t.type = "inline" then
      match t.children with
      | some cs => plainInlineList cs
      | none => ""
     else plainRule t rest.head?) ++ plainTokens rest

/-- Modelled from the spec: the unmodified rendering pipeline, without the
annotation layer (or any of its adapters) installed — markdown-it's default
rules only. -/
def unmodifiedRule (t : Token) (next : Option Token) : String :=
  if t.type = "text" then escapeHtml t.content
  else if t.type = "fence" then defaultFence t
  else if t.type = "directive" ∨ t.type = "directive_error" then
    defaultDirectiveRule t
  else if t.type = "softbreak" then "\n"
  else renderTokenStr t next

/-- The unmodified pipeline over an inline token's children. -/
def unmodifiedInlineList : List Token → String
  | [] => ""
  | c :: rest => unmodifiedRule c rest.head? ++ unmodifiedInlineList rest

/-- The unmodified pipeline over a token stream. -/
def unmodifiedTokens : List Token → String
  | [] => ""
  | t :: rest =>
    (if t.type = "inline" then
      match t.children with
      | some cs => unmodifiedInlineList cs
      | none => ""
     else unmodifiedRule t rest.head?) ++ unmodifiedTokens rest

/-- No token of the stream (nor any of its children) carries the reserved
identifier attribute before the pass runs. -/
def attrsCleanTok (t : Token) : Bool :=
  t.attrs.all (fun p => ¬ p.1 = SRC_LINE_ID) &&
    (t.children.getD []).all
      (fun c => c.attrs.all (fun p => ¬ p.1 = SRC_LINE_ID))

/-- `attrsCleanTok` over a stream. -/
def attrsCleanList (ts : List Token) : Bool := ts.all attrsCleanTok

/-- Erase a token's span (the only field the children walk mutates). -/
def eraseMapTok (t : Token) : Token := t.setMap none

/-- Erase a token's span and its children's spans. -/
def eraseDeep (t : Token) : Token :=
  (t.setMap none).setChildren (t.children.map (fun cs => cs.map eraseMapTok))

/-- Whether the child just before index `i` is an explicit line break. -/
def prevIsSoftbreak (cs : List Token) : Nat → Bool
  | 0 => false
  | i + 1 =>
    match cs.get? i with
    | some d => d.type = "softbreak"
    | none => false

/-- The number of explicit line breaks among the first `i` children: the
visual line a child at index `i` sits on. -/
def sbBefore (cs : List Token) (i : Nat) : Nat :=
  ((cs.take i).filter (fun c => c.type = "softbreak")).length

/-- Spec-side: child `c` at index `i` is the first non-line-break child of a
visual line not yet claimed (given the initial `lineUsed` flag `used`): it is
not a line break itself, and either opens the walk with the flag clear or
directly follows an explicit line break. -/
def claimedAt (used : Bool) (cs : List Token) (i : Nat) (c : Token) : Bool :=
  if c.type = "softbreak" then false
  else if i = 0 then !used
  else prevIsSoftbreak cs i

/-- Spec-side closed form of the fence adapter's per-line wrapping: line `j`
is wrapped in its own span with identifier `Nat.repr (n + j)`. -/
def wrapSpans : List String → Nat → List (List Chunk)
  | [], _ => []
  | l :: rest, n =>
    [Chunk.lit "<span", Chunk.idAttr (Nat.repr n), Chunk.lit ">", Chunk.lit l,
     Chunk.lit "</span>"] :: wrapSpans rest (n + 1)

/-- How many elements of the output carry the identifier `id`. -/
def countId (id : String) (cs : List Chunk) : Nat :=
  (cs.filter (fun c => c = Chunk.idAttr id)).length

/-- Every `(line, id)` entry of the resulting Line Map is carried by exactly
one element of the output. -/
def uniqueIds (r : Option (Env × List Chunk)) : Bool :=
  match r with
  | some (e, out) => e.lineMap.all (fun p => countId p.2 out == 1)
  | none => false

/-- The identifier chunks of `out` are exactly one occurrence of the minted
identifier of each counter value in `[a, b)`. -/
def emitsIds (out : List Chunk) (a b : Nat) : Prop :=
  ∀ m : Nat, countId (Nat.repr m) out = if a ≤ m ∧ m < b then 1 else 0

/-- Every entry of a Line Map carries an identifier minted from a counter
value in `[a, b)`. -/
def mapIdsIn (mp : List (Int × String)) (a b : Nat) : Prop :=
  ∀ (l : Int) (id : String), mapGet mp l = some id →
    ∃ k, a ≤ k ∧ k < b ∧ id = Nat.repr k

/-! ### Concrete streams used by the claims' examples -/

/-- A text-run token. -/
def mkText (c : String) : Token := .mk "text" "" 0 false none none [] c

/-- A softbreak token. -/
def mkSoftbreak : Token := .mk "softbreak" "br" 0 false none none [] ""

/-- A `paragraph_open` token spanning `[l, l+1)`. -/
def mkParaOpen (l : Nat) : Token :=
  .mk "paragraph_open" "p" 1 true (some (l, l + 1)) none [] ""

/-- A `paragraph_close` token. -/
def mkParaClose : Token := .mk "paragraph_close" "p" (-1) true none none [] ""

/-- An inline token with the given children. -/
def mkInline (cs : List Token) : Token :=
  .mk "inline" "" 0 false (some (0, 1)) (some cs) [] ""

/-- A fence token spanning `[l, l2)` with the given content. -/
def mkFence (l l2 : Nat) (content : String) : Token :=
  .mk "fence" "code" 0 true (some (l, l2)) none [] content

/-- A directive token spanning `[l, l2)`. -/
def mkDirective (l l2 : Nat) (content : String) : Token :=
  .mk "directive" "" 0 true (some (l, l2)) none [] content

/-- A fresh single-chunk render pass context (`startLine = 0`,
`chunkId = 0`). -/
def env0 : Env := ⟨0, 0, [], 0⟩

/-- A fresh context for chunk 1 starting at line 10. -/
def env10 : Env := ⟨10, 1, [], 0⟩

/-- A one-line paragraph `"Hello"` at relative line 0. -/
def exPara : List Token :=
  [mkParaOpen 0, mkInline [mkText "Hello"], mkParaClose]

/-- The paragraph `"Line1\nLine2\nLine3"` at line 0. -/
def exPara3 : List Token :=
  [mkParaOpen 0,
   mkInline [mkText "Line1", mkSoftbreak, mkText "Line2", mkSoftbreak,
             mkText "Line3"],
   mkParaClose]

/-- A verbatim block with 4 content lines whose opening fence is line 5. -/
def exFence4 : Token := mkFence 5 10 "l1\nl2\nl3\nl4\n"

/-- A fence whose content does not end with a line break. -/
def exFenceNoNl : Token := mkFence 0 3 "a\nb"

/-- A directive block at line 2. -/
def exDirective : Token := mkDirective 2 4 "note"

/-- A mixed stream: a two-line paragraph followed by a fence. -/
def exMixed : List Token :=
  [mkParaOpen 0, mkInline [mkText "A", mkSoftbreak, mkText "B"], mkParaClose,
   mkFence 2 5 "x\ny\n"]

/-- The identifier the pass recorded for line `l`. -/
def lineIdAt (r : Option (Env × List Chunk)) (l : Int) : Option String :=
  r.bind (fun p => mapGet p.1.lineMap l)

/-- The output string of a pass. -/
def outputOf (r : Option (Env × List Chunk)) : Option String :=
  r.map (fun p => flatten p.2)

/-- The output string of a pass with every identifier attribute stripped. -/
def strippedOf (r : Option (Env × List Chunk)) : Option String :=
  r.map (fun p => stripIdAttrs p.2)

/-- Every line mapped in `m1` is still mapped in `m2`. -/
def lineMapPreserved (m1 m2 : List (Int × String)) : Prop :=
  ∀ l, (mapGet m1 l).isSome = true → (mapGet m2 l).isSome = true

/-! ### Lemmas: the JS map/attribute operations -/

theorem jsGet_nil {κ : Type} [DecidableEq κ] (k : κ) :
    jsGet ([] : List (κ × String)) k = none := rfl

theorem jsGet_cons {κ : Type} [DecidableEq κ] (p : κ × String)
    (m : List (κ × String)) (k : κ) :
    jsGet (p :: m) k = if p.1 = k then some p.2 else jsGet m k := by
  by_cases h : p.1 = k <;> simp [jsGet, List.find?_cons, h]

theorem jsGet_set_self {κ : Type} [DecidableEq κ] (m : List (κ × String))
    (k : κ) (v : String) : jsGet (jsSet m k v) k = some v := by
  by_cases h : m.any (fun p => p.1 = k) = true
  · rw [jsSet, if_pos h]
    induction m with
    | nil => simp at h
    | cons p rest ih =>
      by_cases hp : p.1 = k
      · simp [jsGet_cons, hp]
      · have hr : rest.any (fun p => p.1 = k) = true := by
          simpa [List.any_cons, hp] using h
        simpa [jsGet_cons, hp] using ih hr
  · rw [jsSet, if_neg h]
    induction m with
    | nil => simp [jsGet_cons]
    | cons p rest ih =>
      have hp : ¬ p.1 = k := by
        intro hk
        exact h (by simp [List.any_cons, hk])
      have hr : ¬ rest.any (fun p => p.1 = k) = true := by
        intro hk
        exact h (by simp [List.any_cons, hk])
      simpa [jsGet_cons, hp] using ih hr

theorem jsGet_map_ne {κ : Type} [DecidableEq κ] (m : List (κ × String))
    (k k2 : κ) (v : String) (hne : ¬ k2 = k) :
    jsGet (m.map (fun p => if p.1 = k then (k, v) else p)) k2 = jsGet m k2 := by
  induction m with
  | nil => rfl
  | cons p rest ih =>
    by_cases hp : p.1 = k
    · have h1 : ¬ (k = k2) := fun hk => hne hk.symm
      have h2 : ¬ (p.1 = k2) := by rw [hp]; exact h1
      simp [jsGet_cons, hp, h1, h2, ih]
    · by_cases h2 : p.1 = k2 <;> simp [jsGet_cons, hp, h2, hne, ih]

theorem jsGet_append_ne {κ : Type} [DecidableEq κ] (m : List (κ × String))
    (k k2 : κ) (v : String) (hne : ¬ k2 = k) :
    jsGet (m ++ [(k, v)]) k2 = jsGet m k2 := by
  induction m with
  | nil =>
    have h1 : ¬ (k = k2) := fun hk => hne hk.symm
    simp [jsGet_cons, jsGet_nil, h1]
  | cons p rest ih =>
    by_cases h2 : p.1 = k2 <;> simp [jsGet_cons, h2, ih]

theorem jsGet_set_ne {κ : Type} [DecidableEq κ] (m : List (κ × String))
    (k k2 : κ) (v : String) (hne : ¬ k2 = k) :
    jsGet (jsSet m k v) k2 = jsGet m k2 := by
  by_cases h : m.any (fun p => p.1 = k) = true
  · rw [jsSet, if_pos h]; exact jsGet_map_ne m k k2 v hne
  · rw [jsSet, if_neg h]; exact jsGet_append_ne m k k2 v hne

theorem jsGet_set_isSome {κ : Type} [DecidableEq κ] (m : List (κ × String))
    (k k2 : κ) (v : String) (h : (jsGet m k2).isSome = true) :
    (jsGet (jsSet m k v) k2).isSome = true := by
  by_cases hk : k2 = k
  · subst hk; simp [jsGet_set_self]
  · rwa [jsGet_set_ne m k k2 v hk]

/-! ### Lemmas: the annotator -/

theorem addLineNumber_spanned (t : Token) (rest : List Token) (env : Env)
    (s : Nat × Nat) (hc : ¬ inlineContainers.contains t.type = true)
    (hm : t.map = some s) :
    addLineNumberToTokens t rest env =
      some (t.setAttrs (attrSet t.attrs SRC_LINE_ID (Nat.repr env.nextId)),
        rest,
        { env with
          nextId := env.nextId + 1
          lineMap :=
            mapSet env.lineMap (absLine s.1 env) (Nat.repr env.nextId) }) := by
  have hmem : ¬ t.type ∈ inlineContainers := by
    simpa using hc
  simp [addLineNumberToTokens, hmem, hm]

theorem addLineNumber_unspanned (t : Token) (rest : List Token) (env : Env)
    (hc : ¬ inlineContainers.contains t.type = true) (hm : t.map = none) :
    addLineNumberToTokens t rest env = some (t, rest, env) := by
  have hmem : ¬ t.type ∈ inlineContainers := by
    simpa using hc
  simp [addLineNumberToTokens, hmem, hm]

theorem addLineNumber_container (t : Token) (rest : List Token) (env : Env)
    (r : Token × List Token × Env)
    (hc : inlineContainers.contains t.type = true)
    (h : addLineNumberToTokens t rest env = some r) :
    r.1 = t ∧ r.2.2 = env ∧
      ∃ succ rest2 cs cs2, rest = succ :: rest2 ∧ succ.children = some cs ∧
        walkChildren t.map 0 false cs = some cs2 ∧
        r.2.1 = succ.setChildren (some cs2) :: rest2 := by
  simp only [addLineNumberToTokens] at h
  rw [if_pos hc] at h
  cases rest with
  | nil => exact absurd h (by simp)
  | cons succ rest2 =>
    dsimp only at h
    cases hcs : succ.children with
    | none => rw [hcs] at h; exact absurd h (by simp)
    | some cs =>
      rw [hcs] at h
      dsimp only at h
      cases hw : walkChildren t.map 0 false cs with
      | none => rw [hw] at h; exact absurd h (by simp)
      | some cs2 =>
        rw [hw] at h
        simp only [Option.map_some'] at h
        have hr := Option.some.inj h
        subst hr
        exact ⟨rfl, rfl, succ, rest2, cs, cs2, rfl, hcs, hw, rfl⟩

theorem addLineNumber_container_nil (t : Token) (env : Env)
    (hc : inlineContainers.contains t.type = true) :
    addLineNumberToTokens t [] env = none := by
  simp only [addLineNumberToTokens]
  rw [if_pos hc]

theorem addLineNumber_container_noChildren (t succ : Token)
    (rest : List Token) (env : Env)
    (hc : inlineContainers.contains t.type = true)
    (hcs : succ.children = none) :
    addLineNumberToTokens t (succ :: rest) env = none := by
  simp only [addLineNumberToTokens]
  rw [if_pos hc, hcs]

/-! ### Lemmas: the children walk -/

theorem sbBefore_zero (cs : List Token) : sbBefore cs 0 = 0 := rfl

theorem sbBefore_cons (c0 : Token) (rest : List Token) (i : Nat) :
    sbBefore (c0 :: rest) (i + 1) =
      (if c0.type = "softbreak" then 1 else 0) + sbBefore rest i := by
  by_cases h : c0.type = "softbreak" <;>
    simp [sbBefore, List.take_succ_cons, List.filter_cons, h, Nat.add_comm]

theorem claimedAt_cons (used : Bool) (c0 : Token) (rest : List Token)
    (i : Nat) (c : Token) :
    claimedAt used (c0 :: rest) (i + 1) c =
      claimedAt (!(c0.type == "softbreak")) rest i c := by
  cases i with
  | zero =>
    by_cases h : c0.type = "softbreak" <;>
      simp [claimedAt, prevIsSoftbreak, h]
  | succ j =>
    simp [claimedAt, prevIsSoftbreak]

theorem walkChildren_spec (sp : Nat × Nat) :
    ∀ (cs : List Token) (k : Nat) (used : Bool) (cs2 : List Token),
      walkChildren (some sp) k used cs = some cs2 →
      ∀ (i : Nat) (c : Token), cs.get? i = some c →
        cs2.get? i = some (
          if claimedAt used cs i c then
            c.setMap (some (sp.1 + k + sbBefore cs i,
              sp.1 + k + sbBefore cs i + 1))
          else c) := by
  intro cs
  induction cs with
  | nil => intro k used cs2 h i c hc; simp at hc
  | cons c0 rest ih =>
    intro k used cs2 h i c hc
    by_cases h0 : c0.type = "softbreak"
    · rw [walkChildren, if_pos h0] at h
      rcases Option.map_eq_some'.mp h with ⟨rest2, hw, rfl⟩
      cases i with
      | zero =>
        simp only [List.get?_cons_zero, Option.some.injEq] at hc
        subst hc
        simp [claimedAt, h0]
      | succ j =>
        simp only [List.get?_cons_succ] at hc ⊢
        have hb : (!(c0.type == "softbreak")) = false := by
          simp [h0]
        rw [ih (k + 1) false rest2 hw j c hc, claimedAt_cons,
          sbBefore_cons, if_pos h0, hb]
        by_cases hcl : claimedAt false rest j c = true
        · rw [if_pos hcl, if_pos hcl]
          have harith : sp.1 + (k + 1) + sbBefore rest j =
              sp.1 + k + (1 + sbBefore rest j) := by omega
          rw [harith]
        · rw [if_neg hcl, if_neg hcl]
    · by_cases hu : used = true
      · subst hu
        rw [walkChildren, if_neg h0, if_pos rfl] at h
        rcases Option.map_eq_some'.mp h with ⟨rest2, hw, rfl⟩
        cases i with
        | zero =>
          simp only [List.get?_cons_zero, Option.some.injEq] at hc
          subst hc
          simp [claimedAt, h0]
        | succ j =>
          simp only [List.get?_cons_succ] at hc ⊢
          rw [ih k true rest2 hw j c hc, claimedAt_cons, sbBefore_cons,
            if_neg h0]
          have hb : (!(c0.type == "softbreak")) = true := by
            simp [h0]
          rw [hb]
          by_cases hcl : claimedAt true rest j c = true
          · rw [if_pos hcl, if_pos hcl]
            have harith : sp.1 + k + (0 + sbBefore rest j) =
                sp.1 + k + sbBefore rest j := by omega
            rw [harith]
          · rw [if_neg hcl, if_neg hcl]
      · have hu2 : used = false := by
          cases used
          · rfl
          · exact absurd rfl hu
        subst hu2
        rw [walkChildren, if_neg h0] at h
        simp only [Bool.false_eq_true, if_false] at h
        rcases Option.map_eq_some'.mp h with ⟨rest2, hw, rfl⟩
        cases i with
        | zero =>
          simp only [List.get?_cons_zero, Option.some.injEq] at hc
          subst hc
          have hcl : claimedAt false (c0 :: rest) 0 c0 = true := by
            simp [claimedAt, h0]
          rw [if_pos hcl]
          simp [sbBefore_zero]
        | succ j =>
          simp only [List.get?_cons_succ] at hc ⊢
          rw [ih k true rest2 hw j c hc, claimedAt_cons, sbBefore_cons,
            if_neg h0]
          have hb : (!(c0.type == "softbreak")) = true := by
            simp [h0]
          rw [hb]
          by_cases hcl : claimedAt true rest j c = true
          · rw [if_pos hcl, if_pos hcl]
            have harith : sp.1 + k + (0 + sbBefore rest j) =
                sp.1 + k + sbBefore rest j := by omega
            rw [harith]
          · rw [if_neg hcl, if_neg hcl]

theorem walkChildren_length (m : Option (Nat × Nat)) :
    ∀ (cs : List Token) (k : Nat) (used : Bool) (cs2 : List Token),
      walkChildren m k used cs = some cs2 → cs2.length = cs.length := by
  intro cs
  induction cs with
  | nil =>
    intro k used cs2 h
    simp only [walkChildren, Option.some.injEq] at h
    simp [← h]
  | cons c0 rest ih =>
    intro k used cs2 h
    simp only [walkChildren] at h
    by_cases h0 : c0.type = "softbreak"
    · rw [if_pos h0] at h
      rcases Option.map_eq_some'.mp h with ⟨rest2, hw, rfl⟩
      simp [ih _ _ _ hw]
    · rw [if_neg h0] at h
      by_cases hu : used = true
      · rw [hu] at h
        simp only [if_true] at h
        rcases Option.map_eq_some'.mp h with ⟨rest2, hw, rfl⟩
        simp [ih _ _ _ hw]
      · have hu2 : used = false := by
          cases used
          · rfl
          · exact absurd rfl hu
        rw [hu2] at h
        simp only [Bool.false_eq_true, if_false] at h
        cases m with
        | none => simp at h
        | some s =>
          rcases Option.map_eq_some'.mp h with ⟨rest2, hw, rfl⟩
          simp [ih _ _ _ hw]

/-! ### Lemmas: the fence adapter -/

theorem wrapLines_fst (L : Int) :
    ∀ (lines : List String) (i : Nat) (env : Env),
      (wrapLines L lines i env).1 = wrapSpans lines env.nextId := by
  intro lines
  induction lines with
  | nil => intro i env; rfl
  | cons l rest ih =>
    intro i env
    simp only [wrapLines, wrapSpans]
    rw [ih]

theorem wrapLines_nextId (L : Int) :
    ∀ (lines : List String) (i : Nat) (env : Env),
      (wrapLines L lines i env).2.nextId = env.nextId + lines.length := by
  intro lines
  induction lines with
  | nil => intro i env; rfl
  | cons l rest ih =>
    intro i env
    simp only [wrapLines, List.length_cons]
    rw [ih (i + 1)]
    dsimp only
    omega

theorem wrapLines_frame (L : Int) :
    ∀ (lines : List String) (i : Nat) (env : Env) (kk : Int),
      (kk ≤ L + i ∨ L + i + lines.length < kk) →
      mapGet (wrapLines L lines i env).2.lineMap kk = mapGet env.lineMap kk := by
  intro lines
  induction lines with
  | nil => intro i env kk _; rfl
  | cons l rest ih =>
    intro i env kk hk
    simp only [wrapLines]
    have hcond : kk ≤ L + ((i + 1 : Nat) : Int) ∨
        L + ((i + 1 : Nat) : Int) + rest.length < kk := by
      simp only [List.length_cons] at hk
      push_cast at hk ⊢
      omega
    rw [ih (i + 1) _ kk hcond]
    dsimp only
    have hne : ¬ kk = L + (i : Int) + 1 := by
      simp only [List.length_cons] at hk
      push_cast at hk
      omega
    exact jsGet_set_ne env.lineMap (L + (i : Int) + 1) kk (Nat.repr env.nextId) hne

theorem wrapLines_get (L : Int) :
    ∀ (lines : List String) (i : Nat) (env : Env) (j : Nat),
      j < lines.length →
      mapGet (wrapLines L lines i env).2.lineMap (L + (i : Int) + 1 + j) =
        some (Nat.repr (env.nextId + j)) := by
  intro lines
  induction lines with
  | nil => intro i env j hj; simp at hj
  | cons l rest ih =>
    intro i env j hj
    simp only [wrapLines]
    cases j with
    | zero =>
      have hkey : L + (i : Int) + 1 + ((0 : Nat) : Int) = L + (i : Int) + 1 := by
        push_cast; ring
      rw [hkey]
      rw [wrapLines_frame L rest (i + 1) _ (L + (i : Int) + 1)
        (by push_cast; omega)]
      dsimp only
      have := jsGet_set_self env.lineMap (L + (i : Int) + 1) (Nat.repr env.nextId)
      simpa using this
    | succ j2 =>
      have hkey : L + (i : Int) + 1 + ((j2 + 1 : Nat) : Int) =
          L + ((i + 1 : Nat) : Int) + 1 + (j2 : Int) := by
        push_cast; ring
      rw [hkey]
      have hlt : j2 < rest.length := by
        simp only [List.length_cons] at hj
        omega
      rw [ih (i + 1) _ j2 hlt]
      dsimp only
      have harith : env.nextId + 1 + j2 = env.nextId + (j2 + 1) := by omega
      rw [harith]

theorem enumFrom_filter_dropLast {α : Type} (l : List α) :
    ∀ n, ((List.enumFrom n l).filter
      (fun p => p.1 ≠ n + l.length - 1)).map Prod.snd = l.dropLast := by
  induction l with
  | nil => intro n; rfl
  | cons x xs ih =>
    intro n
    rw [List.enumFrom_cons]
    cases xs with
    | nil => simp
    | cons y ys =>
      have hlen : n + (x :: y :: ys).length - 1 = n + (y :: ys).length := by
        simp only [List.length_cons]
        omega
      rw [List.filter_cons]
      simp only [hlen]
      rw [if_pos (by
        simp only [decide_eq_true_eq, List.length_cons]
        omega)]
      have hcongr : (List.enumFrom (n + 1) (y :: ys)).filter
          (fun p => p.1 ≠ n + (y :: ys).length) =
          (List.enumFrom (n + 1) (y :: ys)).filter
          (fun p => p.1 ≠ (n + 1) + (y :: ys).length - 1) := by
        apply List.filter_congr
        intro a _
        have harith : n + (y :: ys).length = (n + 1) + (y :: ys).length - 1 := by
          omega
        rw [harith]
      simp only [List.map_cons]
      rw [hcongr, ih (n + 1)]
      rfl

theorem dropLastIdx_eq_dropLast (l : List String) : dropLastIdx l = l.dropLast := by
  have h := enumFrom_filter_dropLast l 0
  rw [dropLastIdx, List.enum]
  have hcongr : (List.enumFrom 0 l).filter (fun p => p.1 ≠ l.length - 1) =
      (List.enumFrom 0 l).filter (fun p => p.1 ≠ 0 + l.length - 1) := by
    apply List.filter_congr
    intro a _
    have : l.length - 1 = 0 + l.length - 1 := by omega
    rw [this]
  rw [hcongr, h]

theorem defaultFence_startsWith (t : Token) :
    strStartsWith (defaultFence t) "<pre" = true := by
  rw [strStartsWith, List.isPrefixOf_iff_prefix]
  show ("<pre" : String).data <+: (defaultFence t).data
  rw [defaultFence]
  rw [String.data_append, String.data_append, String.data_append,
    String.data_append]
  have h1 : ("<pre><code" : String).data =
      ("<pre" : String).data ++ ('>' :: '<' :: 'c' :: 'o' :: 'd' :: 'e' :: []) := by
    decide
  rw [h1]
  simp only [List.append_assoc]
  exact List.prefix_append _ _

theorem wrapFenced_nonPre (defaultOutput : String) (t : Token) (env : Env)
    (h : strStartsWith defaultOutput "<pre" = false) :
    wrapFencedLinesInSpan defaultOutput t env =
      some (spliceAt defaultOutput (Chunk.lit " " :: renderAttrsChunks t.attrs),
        env) := by
  simp [wrapFencedLinesInSpan, h]

theorem wrapFenced_pre (defaultOutput : String) (t : Token) (env : Env)
    (s : Nat × Nat) (hm : t.map = some s)
    (h : strStartsWith defaultOutput "<pre" = true) :
    wrapFencedLinesInSpan defaultOutput t env =
      some ([Chunk.lit "<pre><code"] ++ renderAttrsChunks t.attrs
        ++ [Chunk.lit ">"]
        ++ joinSep [Chunk.lit "\n"]
             (wrapSpans (dropLastIdx (splitOnNl (escapeHtml t.content)))
               env.nextId)
        ++ [Chunk.lit "</code></pre>\n"],
        (wrapLines (absLine s.1 env)
          (dropLastIdx (splitOnNl (escapeHtml t.content))) 0 env).2) := by
  unfold wrapFencedLinesInSpan
  rw [if_neg (by simp [h])]
  rw [hm]
  dsimp only
  rw [wrapLines_fst]

theorem spliceAt_parts (html : String) (extra : List Chunk) :
    ∃ pre post, spliceAt html extra =
      [Chunk.lit pre] ++ extra ++ [Chunk.lit post] ∧ pre ++ post = html := by
  cases hidx : html.data.findIdx? (fun c => c = '>') with
  | some i =>
    refine ⟨String.mk (html.data.take i), String.mk (html.data.drop i),
      ?_, ?_⟩
    · unfold spliceAt
      rw [hidx]
    · show String.mk (html.data.take i ++ html.data.drop i) = html
      rw [List.take_append_drop]
  | none =>
    refine ⟨String.mk html.data.dropLast,
      String.mk (html.data.drop (html.data.length - 1)), ?_, ?_⟩
    · unfold spliceAt
      rw [hidx]
    · show String.mk
        (html.data.dropLast ++ html.data.drop (html.data.length - 1)) = html
      rw [List.dropLast_eq_take, List.take_append_drop]

theorem findIdx?_before {α : Type} (p : α → Bool) :
    ∀ (l : List α) (i : Nat), l.findIdx? p = some i →
      (∀ x ∈ l.take i, p x = false) ∧ ∃ x, l.get? i = some x ∧ p x = true := by
  intro l
  induction l with
  | nil => intro i h; simp at h
  | cons x xs ih =>
    intro i h
    rw [List.findIdx?_cons] at h
    by_cases hx : p x = true
    · rw [if_pos hx] at h
      obtain rfl : (0 : Nat) = i := Option.some.inj h
      exact ⟨by simp, x, rfl, hx⟩
    · have hx2 : p x = false := by
        cases hpx : p x
        · rfl
        · exact absurd hpx hx
      rw [if_neg hx] at h
      rw [List.findIdx?_succ] at h
      rcases Option.map_eq_some'.mp h with ⟨j, hj, rfl⟩
      rcases ih j hj with ⟨hall, y, hy, hpy⟩
      refine ⟨?_, y, by simpa using hy, hpy⟩
      intro z hz
      rw [List.take_succ_cons] at hz
      rcases List.mem_cons.mp hz with rfl | hz2
      · exact hx2
      · exact hall z hz2

/-! ### Lemmas: token field bookkeeping -/

theorem type_setAttrs (t : Token) (a : List (String × String)) :
    (t.setAttrs a).type = t.type := by cases t; rfl

theorem tag_setAttrs (t : Token) (a : List (String × String)) :
    (t.setAttrs a).tag = t.tag := by cases t; rfl

theorem nesting_setAttrs (t : Token) (a : List (String × String)) :
    (t.setAttrs a).nesting = t.nesting := by cases t; rfl

theorem block_setAttrs (t : Token) (a : List (String × String)) :
    (t.setAttrs a).block = t.block := by cases t; rfl

theorem map_setAttrs (t : Token) (a : List (String × String)) :
    (t.setAttrs a).map = t.map := by cases t; rfl

theorem content_setAttrs (t : Token) (a : List (String × String)) :
    (t.setAttrs a).content = t.content := by cases t; rfl

theorem attrs_setAttrs (t : Token) (a : List (String × String)) :
    (t.setAttrs a).attrs = a := by cases t; rfl

theorem eraseMapTok_setMap (t : Token) (m : Option (Nat × Nat)) :
    eraseMapTok (t.setMap m) = eraseMapTok t := by cases t; rfl

theorem eraseMapTok_to_eraseDeep (c d : Token)
    (h : eraseMapTok c = eraseMapTok d) : eraseDeep c = eraseDeep d := by
  cases c
  cases d
  simp only [eraseMapTok, Token.setMap, Token.mk.injEq] at h
  obtain ⟨h1, h2, h3, h4, -, h6, h7, h8⟩ := h
  subst h1; subst h2; subst h3; subst h4; subst h6; subst h7; subst h8
  rfl

theorem eraseDeep_fields (c d : Token) (h : eraseDeep c = eraseDeep d) :
    c.type = d.type ∧ c.tag = d.tag ∧ c.nesting = d.nesting ∧
      c.block = d.block ∧ c.attrs = d.attrs ∧ c.content = d.content ∧
      c.children.map (fun cs => cs.map eraseMapTok) =
        d.children.map (fun cs => cs.map eraseMapTok) := by
  cases c
  cases d
  simp only [eraseDeep, Token.setMap, Token.setChildren, Token.children,
    Token.mk.injEq] at h
  obtain ⟨h1, h2, h3, h4, -, h5, h6, h7⟩ := h
  exact ⟨h1, h2, h3, h4, h6, h7, h5⟩

theorem eraseMapTok_of_map_eq {cs ds : List Token}
    (h : cs.map eraseMapTok = ds.map eraseMapTok) :
    cs.map eraseDeep = ds.map eraseDeep := by
  induction cs generalizing ds with
  | nil => cases ds with
    | nil => rfl
    | cons d ds2 => simp at h
  | cons c cs2 ih =>
    cases ds with
    | nil => simp at h
    | cons d ds2 =>
      simp only [List.map_cons, List.cons.injEq] at h ⊢
      exact ⟨eraseMapTok_to_eraseDeep c d h.1, ih h.2⟩

/-! ### Lemmas: stripping identifier attributes -/

theorem flatten_append (a b : List Chunk) :
    flatten (a ++ b) = flatten a ++ flatten b := by
  induction a with
  | nil => simp [flatten]
  | cons c cs ih =>
    show c.str ++ flatten (cs ++ b) = c.str ++ flatten cs ++ flatten b
    rw [ih, String.append_assoc]

theorem stripIdAttrs_append (a b : List Chunk) :
    stripIdAttrs (a ++ b) = stripIdAttrs a ++ stripIdAttrs b := by
  simp only [stripIdAttrs, List.filter_append, flatten_append]

theorem stripIdAttrs_lit (s : String) (rest : List Chunk) :
    stripIdAttrs (Chunk.lit s :: rest) = s ++ stripIdAttrs rest := by
  simp [stripIdAttrs, List.filter_cons, Chunk.isId, flatten, Chunk.str]

theorem stripIdAttrs_idAttr (id : String) (rest : List Chunk) :
    stripIdAttrs (Chunk.idAttr id :: rest) = stripIdAttrs rest := by
  simp [stripIdAttrs, List.filter_cons, Chunk.isId]

theorem stripIdAttrs_nil : stripIdAttrs [] = "" := rfl

theorem strip_renderAttrsChunks (attrs : List (String × String))
    (h : attrs.all (fun p => ¬ p.1 = SRC_LINE_ID) = true) :
    stripIdAttrs (renderAttrsChunks attrs) = renderAttrsStr attrs := by
  induction attrs with
  | nil => rfl
  | cons kv rest ih =>
    rw [List.all_cons] at h
    rcases Bool.and_eq_true_iff.mp h with ⟨h1, h2⟩
    have hne : ¬ kv.1 = SRC_LINE_ID := by simpa using h1
    simp only [renderAttrsChunks, List.map_cons, renderAttrsStr]
    rw [if_neg hne, stripIdAttrs_lit]
    rw [renderAttrsChunks] at ih
    rw [ih h2]

theorem attrSet_fresh (attrs : List (String × String)) (id : String)
    (h : attrs.all (fun p => ¬ p.1 = SRC_LINE_ID) = true) :
    attrSet attrs SRC_LINE_ID id = attrs ++ [(SRC_LINE_ID, id)] := by
  have hany : attrs.any (fun p => p.1 = SRC_LINE_ID) = false := by
    rw [← Bool.not_eq_true]
    intro hc
    rcases List.any_eq_true.mp hc with ⟨p, hp, hp2⟩
    have := List.all_eq_true.mp h p hp
    simp at this hp2
    exact this hp2
  rw [attrSet, jsSet, if_neg (by simp [hany])]

theorem renderAttrsChunks_append (a b : List (String × String)) :
    renderAttrsChunks (a ++ b) = renderAttrsChunks a ++ renderAttrsChunks b := by
  simp only [renderAttrsChunks, List.map_append]

theorem renderAttrsChunks_idSingle (id : String) :
    renderAttrsChunks [(SRC_LINE_ID, id)] = [Chunk.idAttr id] := by
  simp [renderAttrsChunks]

theorem strip_renderAttrsChunks_set (attrs : List (String × String))
    (id : String)
    (h : attrs.all (fun p => ¬ p.1 = SRC_LINE_ID) = true) :
    stripIdAttrs (renderAttrsChunks (attrSet attrs SRC_LINE_ID id)) =
      renderAttrsStr attrs := by
  rw [attrSet_fresh attrs id h, renderAttrsChunks_append, stripIdAttrs_append,
    renderAttrsChunks_idSingle, stripIdAttrs_idAttr, stripIdAttrs_nil,
    strip_renderAttrsChunks attrs h]
  simp

/-! ### Lemmas: the comparison pipeline only reads span-independent fields -/

theorem head?_map_eq {α β : Type} (f : α → β) :
    ∀ (xs ys : List α), xs.map f = ys.map f →
      xs.head?.map f = ys.head?.map f := by
  intro xs ys h
  cases xs <;> cases ys <;> simp_all

theorem eraseMapTok_attrs (c d : Token) (h : eraseMapTok c = eraseMapTok d) :
    c.attrs = d.attrs := by
  cases c
  cases d
  simp only [eraseMapTok, Token.setMap, Token.mk.injEq] at h
  obtain ⟨-, -, -, -, -, -, h7, -⟩ := h
  exact h7

theorem all_congr_eraseMapTok (q : Token → Bool)
    (hq : ∀ c d, eraseMapTok c = eraseMapTok d → q c = q d) :
    ∀ (cs ds : List Token), cs.map eraseMapTok = ds.map eraseMapTok →
      cs.all q = ds.all q := by
  intro cs
  induction cs with
  | nil =>
    intro ds h
    cases ds with
    | nil => rfl
    | cons d ds2 => simp at h
  | cons c cs2 ih =>
    intro ds h
    cases ds with
    | nil => simp at h
    | cons d ds2 =>
      simp only [List.map_cons, List.cons.injEq] at h
      simp only [List.all_cons, hq c d h.1, ih ds2 h.2]

theorem renderTokenStr_congr (c d : Token) (n1 n2 : Option Token)
    (hcd : eraseDeep c = eraseDeep d)
    (hn : n1.map eraseDeep = n2.map eraseDeep) :
    renderTokenStr c n1 = renderTokenStr d n2 := by
  obtain ⟨hty, htag, hnest, hblock, hattrs, hcontent, -⟩ :=
    eraseDeep_fields c d hcd
  have hlf : needLf c n1 = needLf d n2 := by
    cases n1 with
    | none =>
      cases n2 with
      | none => simp [needLf, hnest, hblock]
      | some b => simp at hn
    | some a =>
      cases n2 with
      | none => simp at hn
      | some b =>
        simp only [Option.map_some', Option.some.injEq] at hn
        obtain ⟨hty2, htag2, hnest2, -, -, -, -⟩ := eraseDeep_fields a b hn
        simp [needLf, hnest, hblock, hty2, htag2, hnest2, htag]
  rw [renderTokenStr, renderTokenStr, hnest, htag, hattrs, hlf]

theorem plainRule_congr (c d : Token) (n1 n2 : Option Token)
    (hcd : eraseDeep c = eraseDeep d)
    (hn : n1.map eraseDeep = n2.map eraseDeep) :
    plainRule c n1 = plainRule d n2 := by
  obtain ⟨hty, htag, hnest, hblock, hattrs, hcontent, -⟩ :=
    eraseDeep_fields c d hcd
  have hrt := renderTokenStr_congr c d n1 n2 hcd hn
  unfold plainRule
  rw [hty, hattrs, hcontent, hrt, defaultDirectiveRule, defaultDirectiveRule,
    hcontent]

theorem plainInlineList_congr :
    ∀ (cs ds : List Token), cs.map eraseDeep = ds.map eraseDeep →
      plainInlineList cs = plainInlineList ds := by
  intro cs
  induction cs with
  | nil =>
    intro ds h
    cases ds with
    | nil => rfl
    | cons d ds2 => simp at h
  | cons c cs2 ih =>
    intro ds h
    cases ds with
    | nil => simp at h
    | cons d ds2 =>
      simp only [List.map_cons, List.cons.injEq] at h
      rw [plainInlineList, plainInlineList, ih ds2 h.2,
        plainRule_congr c d cs2.head? ds2.head? h.1
          (head?_map_eq eraseDeep cs2 ds2 h.2)]

theorem plainTokens_congr :
    ∀ (ts us : List Token), ts.map eraseDeep = us.map eraseDeep →
      plainTokens ts = plainTokens us := by
  intro ts
  induction ts with
  | nil =>
    intro us h
    cases us with
    | nil => rfl
    | cons u us2 => simp at h
  | cons t ts2 ih =>
    intro us h
    cases us with
    | nil => simp at h
    | cons u us2 =>
      simp only [List.map_cons, List.cons.injEq] at h
      obtain ⟨h1, h2⟩ := h
      obtain ⟨hty, -, -, -, -, -, hch⟩ := eraseDeep_fields t u h1
      rw [plainTokens, plainTokens, ih us2 h2]
      congr 1
      rw [hty]
      by_cases hinline : u.type = "inline"
      · rw [if_pos hinline, if_pos hinline]
        cases hct : t.children with
        | none =>
          cases hcu : u.children with
          | none => rfl
          | some ds => rw [hct, hcu] at hch; simp at hch
        | some cs =>
          cases hcu : u.children with
          | none => rw [hct, hcu] at hch; simp at hch
          | some ds =>
            rw [hct, hcu] at hch
            simp only [Option.map_some', Option.some.injEq] at hch
            exact plainInlineList_congr cs ds (eraseMapTok_of_map_eq hch)
      · rw [if_neg hinline, if_neg hinline]
        exact plainRule_congr t u ts2.head? us2.head? h1
          (head?_map_eq eraseDeep ts2 us2 h2)

theorem attrsCleanTok_congr (t u : Token) (h : eraseDeep t = eraseDeep u) :
    attrsCleanTok t = attrsCleanTok u := by
  obtain ⟨-, -, -, -, hattrs, -, hch⟩ := eraseDeep_fields t u h
  rw [attrsCleanTok, attrsCleanTok, hattrs]
  congr 1
  cases hct : t.children with
  | none =>
    cases hcu : u.children with
    | none => rfl
    | some ds => rw [hct, hcu] at hch; simp at hch
  | some cs =>
    cases hcu : u.children with
    | none => rw [hct, hcu] at hch; simp at hch
    | some ds =>
      rw [hct, hcu] at hch
      simp only [Option.map_some', Option.some.injEq] at hch
      simp only [Option.getD_some]
      exact all_congr_eraseMapTok _
        (fun c d hcd => by rw [eraseMapTok_attrs c d hcd]) cs ds hch

theorem attrsCleanList_congr :
    ∀ (ts us : List Token), ts.map eraseDeep = us.map eraseDeep →
      attrsCleanList ts = attrsCleanList us := by
  intro ts
  induction ts with
  | nil =>
    intro us h
    cases us with
    | nil => rfl
    | cons u us2 => simp at h
  | cons t ts2 ih =>
    intro us h
    cases us with
    | nil => simp at h
    | cons u us2 =>
      simp only [List.map_cons, List.cons.injEq] at h
      simp only [attrsCleanList, List.all_cons]
      rw [attrsCleanTok_congr t u h.1]
      have := ih us2 h.2
      simp only [attrsCleanList] at this
      rw [this]

theorem walkChildren_eraseMap (m : Option (Nat × Nat)) :
    ∀ (cs : List Token) (k : Nat) (used : Bool) (cs2 : List Token),
      walkChildren m k used cs = some cs2 →
      cs2.map eraseMapTok = cs.map eraseMapTok := by
  intro cs
  induction cs with
  | nil =>
    intro k used cs2 h
    simp only [walkChildren, Option.some.injEq] at h
    simp [← h]
  | cons c0 rest ih =>
    intro k used cs2 h
    simp only [walkChildren] at h
    by_cases h0 : c0.type = "softbreak"
    · rw [if_pos h0] at h
      rcases Option.map_eq_some'.mp h with ⟨rest2, hw, rfl⟩
      simp only [List.map_cons, ih _ _ _ hw]
    · rw [if_neg h0] at h
      by_cases hu : used = true
      · rw [hu] at h
        simp only [if_true] at h
        rcases Option.map_eq_some'.mp h with ⟨rest2, hw, rfl⟩
        simp only [List.map_cons, ih _ _ _ hw]
      · have hu2 : used = false := by
          cases used
          · rfl
          · exact absurd rfl hu
        rw [hu2] at h
        simp only [Bool.false_eq_true, if_false] at h
        cases m with
        | none => simp at h
        | some s =>
          rcases Option.map_eq_some'.mp h with ⟨rest2, hw, rfl⟩
          simp only [List.map_cons, ih _ _ _ hw, eraseMapTok_setMap]

/-! ### Lemmas: stripping each adapted rule's output -/

theorem stripIdAttrs_single_lit (s : String) :
    stripIdAttrs [Chunk.lit s] = s := by
  rw [stripIdAttrs_lit, stripIdAttrs_nil, String.append_empty]

theorem strip_spliceAt (html : String) (extra : List Chunk) :
    stripIdAttrs (spliceAt html extra) =
      spliceAtStr html (stripIdAttrs extra) := by
  cases hidx : html.data.findIdx? (fun c => c = '>') with
  | some i =>
    unfold spliceAt spliceAtStr
    rw [hidx]
    dsimp only
    rw [stripIdAttrs_append, stripIdAttrs_append, stripIdAttrs_single_lit,
      stripIdAttrs_single_lit]
  | none =>
    unfold spliceAt spliceAtStr
    rw [hidx]
    dsimp only
    rw [stripIdAttrs_append, stripIdAttrs_append, stripIdAttrs_single_lit,
      stripIdAttrs_single_lit]

theorem needLf_setAttrs (t : Token) (a : List (String × String))
    (next : Option Token) : needLf (t.setAttrs a) next = needLf t next := by
  cases t; rfl

theorem strip_renderTokenChunks (t : Token) (next : Option Token)
    (h : t.attrs.all (fun p => ¬ p.1 = SRC_LINE_ID) = true) :
    stripIdAttrs (renderTokenChunks t next) = renderTokenStr t next := by
  unfold renderTokenChunks renderTokenStr
  rw [stripIdAttrs_append, stripIdAttrs_append, stripIdAttrs_single_lit,
    stripIdAttrs_single_lit, strip_renderAttrsChunks t.attrs h]

theorem strip_renderTokenChunks_set (t : Token) (next : Option Token)
    (id : String)
    (h : t.attrs.all (fun p => ¬ p.1 = SRC_LINE_ID) = true) :
    stripIdAttrs
      (renderTokenChunks (t.setAttrs (attrSet t.attrs SRC_LINE_ID id)) next) =
      renderTokenStr t next := by
  unfold renderTokenChunks renderTokenStr
  rw [stripIdAttrs_append, stripIdAttrs_append, stripIdAttrs_single_lit,
    stripIdAttrs_single_lit, attrs_setAttrs, strip_renderAttrsChunks_set _ _ h,
    needLf_setAttrs, nesting_setAttrs, tag_setAttrs]

theorem strip_textRule (t : Token)
    (h : t.attrs.all (fun p => ¬ p.1 = SRC_LINE_ID) = true) :
    stripIdAttrs (textRule t) =
      "<span" ++ renderAttrsStr t.attrs ++ ">" ++ escapeHtml t.content
        ++ "</span>" := by
  unfold textRule
  rw [stripIdAttrs_append, stripIdAttrs_append, stripIdAttrs_single_lit,
    stripIdAttrs_lit, stripIdAttrs_lit, stripIdAttrs_single_lit,
    strip_renderAttrsChunks t.attrs h]
  simp [String.append_assoc]

theorem strip_textRule_set (t : Token) (id : String)
    (h : t.attrs.all (fun p => ¬ p.1 = SRC_LINE_ID) = true) :
    stripIdAttrs (textRule (t.setAttrs (attrSet t.attrs SRC_LINE_ID id))) =
      "<span" ++ renderAttrsStr t.attrs ++ ">" ++ escapeHtml t.content
        ++ "</span>" := by
  unfold textRule
  rw [stripIdAttrs_append, stripIdAttrs_append, stripIdAttrs_single_lit,
    stripIdAttrs_lit, stripIdAttrs_lit, stripIdAttrs_single_lit,
    attrs_setAttrs, strip_renderAttrsChunks_set _ _ h, content_setAttrs]
  simp [String.append_assoc]

theorem strip_wrapSpans_join (lines : List String) :
    ∀ n, stripIdAttrs (joinSep [Chunk.lit "\n"] (wrapSpans lines n)) =
      joinSepStr "\n" (lines.map (fun l => "<span>" ++ l ++ "</span>")) := by
  induction lines with
  | nil => intro n; rfl
  | cons l rest ih =>
    intro n
    cases rest with
    | nil =>
      show stripIdAttrs (joinSep [Chunk.lit "\n"]
        [[Chunk.lit "<span", Chunk.idAttr (Nat.repr n), Chunk.lit ">",
          Chunk.lit l, Chunk.lit "</span>"]]) = _
      rw [joinSep]
      rw [stripIdAttrs_lit, stripIdAttrs_idAttr, stripIdAttrs_lit,
        stripIdAttrs_lit, stripIdAttrs_single_lit]
      show _ = "<span>" ++ l ++ "</span>"
      have hlit : ("<span" : String) ++ ">" = "<span>" := by decide
      rw [← String.append_assoc, ← String.append_assoc, hlit]
    | cons l2 rest2 =>
      show stripIdAttrs (joinSep [Chunk.lit "\n"]
        ([Chunk.lit "<span", Chunk.idAttr (Nat.repr n), Chunk.lit ">",
          Chunk.lit l, Chunk.lit "</span>"] ::
          wrapSpans (l2 :: rest2) (n + 1))) = _
      have hw : wrapSpans (l2 :: rest2) (n + 1) =
          [Chunk.lit "<span", Chunk.idAttr (Nat.repr (n + 1)), Chunk.lit ">",
            Chunk.lit l2, Chunk.lit "</span>"] ::
            wrapSpans rest2 (n + 1 + 1) := rfl
      rw [hw, joinSep, ← hw]
      rw [stripIdAttrs_append, stripIdAttrs_append]
      rw [ih (n + 1)]
      rw [stripIdAttrs_lit, stripIdAttrs_idAttr, stripIdAttrs_lit,
        stripIdAttrs_lit, stripIdAttrs_single_lit, stripIdAttrs_single_lit]
      show _ = ("<span>" ++ l ++ "</span>") ++ "\n" ++
        joinSepStr "\n" ((l2 :: rest2).map (fun x => "<span>" ++ x ++ "</span>"))
      have hlit : ("<span" : String) ++ ">" = "<span>" := by decide
      simp only [← String.append_assoc, hlit]

/-! ### Lemmas: unfolding the rule dispatch -/

theorem runRule_text (t : Token) (next : Option Token) (env : Env)
    (h : t.type = "text") : runRule t next env = some (textRule t, env) := by
  simp [runRule, h]

theorem runRule_fence (t : Token) (next : Option Token) (env : Env)
    (h : t.type = "fence") :
    runRule t next env = wrapFencedLinesInSpan (defaultFence t) t env := by
  simp [runRule, h]

theorem runRule_directive (t : Token) (next : Option Token) (env : Env)
    (h : t.type = "directive" ∨ t.type = "directive_error") :
    runRule t next env =
      some (directiveNewRule (defaultDirectiveRule t) t, env) := by
  have h1 : ¬ t.type = "text" := by
    rcases h with h | h <;> rw [h] <;> decide
  have h2 : ¬ t.type = "fence" := by
    rcases h with h | h <;> rw [h] <;> decide
  simp [runRule, h1, h2, h]

theorem runRule_softbreak (t : Token) (next : Option Token) (env : Env)
    (h : t.type = "softbreak") :
    runRule t next env = some ([Chunk.lit "\n"], env) := by
  simp [runRule, h]

theorem runRule_other (t : Token) (next : Option Token) (env : Env)
    (h1 : ¬ t.type = "text") (h2 : ¬ t.type = "fence")
    (h3 : ¬ t.type = "directive") (h4 : ¬ t.type = "directive_error")
    (h5 : ¬ t.type = "softbreak") :
    runRule t next env = some (renderTokenChunks t next, env) := by
  simp [runRule, h1, h2, h3, h4, h5]

theorem eraseDeep_setChildren_walk (succ : Token) (cs cs2 : List Token)
    (hc : succ.children = some cs)
    (he : cs2.map eraseMapTok = cs.map eraseMapTok) :
    eraseDeep (succ.setChildren (some cs2)) = eraseDeep succ := by
  cases succ
  simp only [Token.children] at hc
  subst hc
  simp only [eraseDeep, Token.setChildren, Token.setMap, Token.children,
    Option.map_some', Token.mk.injEq]
  simp [he]

/-! ### Lemmas: unfolding the comparison rule -/

theorem plainRule_text (t : Token) (next : Option Token)
    (h : t.type = "text") :
    plainRule t next = "<span" ++ renderAttrsStr t.attrs ++ ">"
      ++ escapeHtml t.content ++ "</span>" := by
  simp [plainRule, h]

theorem plainRule_fence (t : Token) (next : Option Token)
    (h : t.type = "fence") :
    plainRule t next = "<pre><code" ++ renderAttrsStr t.attrs ++ ">"
      ++ joinSepStr "\n"
           ((dropLastIdx (splitOnNl (escapeHtml t.content))).map
             (fun l => "<span>" ++ l ++ "</span>"))
      ++ "</code></pre>\n" := by
  simp [plainRule, h]

theorem plainRule_directive (t : Token) (next : Option Token)
    (h : t.type = "directive" ∨ t.type = "directive_error") :
    plainRule t next =
      spliceAtStr (defaultDirectiveRule t) (renderAttrsStr t.attrs) := by
  have h1 : ¬ t.type = "text" := by
    rcases h with h | h <;> rw [h] <;> decide
  have h2 : ¬ t.type = "fence" := by
    rcases h with h | h <;> rw [h] <;> decide
  simp [plainRule, h1, h2, h]

theorem plainRule_softbreak (t : Token) (next : Option Token)
    (h : t.type = "softbreak") : plainRule t next = "\n" := by
  simp [plainRule, h]

theorem plainRule_other (t : Token) (next : Option Token)
    (h1 : ¬ t.type = "text") (h2 : ¬ t.type = "fence")
    (h3 : ¬ t.type = "directive") (h4 : ¬ t.type = "directive_error")
    (h5 : ¬ t.type = "softbreak") :
    plainRule t next = renderTokenStr t next := by
  simp [plainRule, h1, h2, h3, h4, h5]

theorem defaultDirectiveRule_setAttrs (t : Token) (a : List (String × String)) :
    defaultDirectiveRule (t.setAttrs a) = defaultDirectiveRule t := by
  cases t; rfl

theorem wrapFenced_pre_noMap (defaultOutput : String) (t : Token) (env : Env)
    (hm : t.map = none) (h : strStartsWith defaultOutput "<pre" = true) :
    wrapFencedLinesInSpan defaultOutput t env = none := by
  unfold wrapFencedLinesInSpan
  rw [if_neg (by simp [h])]
  rw [hm]

/-! ### The annotation layer is strictly additive: one step -/

theorem strip_renderStep (t : Token) (rest : List Token) (env : Env)
    (out : List Chunk) (rest2 : List Token) (env2 : Env)
    (h : renderStep t rest env = some (out, rest2, env2))
    (ha : t.attrs.all (fun p => ¬ p.1 = SRC_LINE_ID) = true) :
    stripIdAttrs out = plainRule t rest.head? ∧
      rest2.map eraseDeep = rest.map eraseDeep := by
  by_cases hcont : inlineContainers.contains t.type = true
  · -- paragraph_open / heading_open: the children walk
    have hmem : t.type ∈ inlineContainers := by simpa using hcont
    simp only [inlineContainers, List.mem_cons, List.mem_singleton,
      List.not_mem_nil, or_false] at hmem
    have hov : overrideRules.contains t.type = true := by
      rcases hmem with h1 | h1 <;> rw [h1] <;> decide
    have hn1 : ¬ t.type = "text" := by
      rcases hmem with h1 | h1 <;> rw [h1] <;> decide
    have hn2 : ¬ t.type = "fence" := by
      rcases hmem with h1 | h1 <;> rw [h1] <;> decide
    have hn3 : ¬ t.type = "directive" := by
      rcases hmem with h1 | h1 <;> rw [h1] <;> decide
    have hn4 : ¬ t.type = "directive_error" := by
      rcases hmem with h1 | h1 <;> rw [h1] <;> decide
    have hn5 : ¬ t.type = "softbreak" := by
      rcases hmem with h1 | h1 <;> rw [h1] <;> decide
    unfold renderStep at h
    rw [if_pos hov] at h
    cases hal : addLineNumberToTokens t rest env with
    | none => rw [hal] at h; exact absurd h (by simp)
    | some x =>
      obtain ⟨t2, restx, envx⟩ := x
      rw [hal] at h
      dsimp only at h
      obtain ⟨ht2, henvx, succ, rest', cs, cs2, hrest, hcs, hw, hrestx⟩ :=
        addLineNumber_container t rest env (t2, restx, envx) hcont hal
      dsimp only at ht2 henvx hrestx
      rw [ht2, henvx, hrestx] at h
      rw [runRule_other t _ env hn1 hn2 hn3 hn4 hn5] at h
      dsimp only at h
      simp only [Option.some.injEq, Prod.mk.injEq] at h
      obtain ⟨hout, hrest2, henv2⟩ := h
      subst hrest2
      have herase1 : eraseDeep (succ.setChildren (some cs2)) = eraseDeep succ :=
        eraseDeep_setChildren_walk succ cs cs2 hcs
          (walkChildren_eraseMap t.map cs 0 false cs2 hw)
      constructor
      · rw [← hout, strip_renderTokenChunks t _ ha, hrest,
          plainRule_other t (succ :: rest').head? hn1 hn2 hn3 hn4 hn5]
        exact renderTokenStr_congr t t _ _ rfl (by simp [herase1])
      · rw [hrest]
        simp only [List.map_cons]
        rw [herase1]
  · -- not an inline container
    by_cases hty1 : t.type = "text"
    · have hov : overrideRules.contains t.type = true := by rw [hty1]; decide
      unfold renderStep at h
      rw [if_pos hov] at h
      cases hm : t.map with
      | some s =>
        rw [addLineNumber_spanned t rest env s hcont hm] at h
        dsimp only at h
        rw [runRule_text _ _ _ (by rw [type_setAttrs]; exact hty1)] at h
        dsimp only at h
        simp only [Option.some.injEq, Prod.mk.injEq] at h
        obtain ⟨hout, hrest2, henv2⟩ := h
        subst hrest2
        refine ⟨?_, rfl⟩
        rw [← hout, strip_textRule_set t _ ha, plainRule_text t rest.head? hty1]
      | none =>
        rw [addLineNumber_unspanned t rest env hcont hm] at h
        dsimp only at h
        rw [runRule_text _ _ _ hty1] at h
        dsimp only at h
        simp only [Option.some.injEq, Prod.mk.injEq] at h
        obtain ⟨hout, hrest2, henv2⟩ := h
        subst hrest2
        refine ⟨?_, rfl⟩
        rw [← hout, strip_textRule t ha, plainRule_text t rest.head? hty1]
    · by_cases hty2 : t.type = "fence"
      · have hov : overrideRules.contains t.type = true := by
          rw [hty2]; decide
        unfold renderStep at h
        rw [if_pos hov] at h
        cases hm : t.map with
        | some s =>
          rw [addLineNumber_spanned t rest env s hcont hm] at h
          dsimp only at h
          rw [runRule_fence _ _ _ (by rw [type_setAttrs]; exact hty2)] at h
          rw [wrapFenced_pre _ _ _ s (by rw [map_setAttrs]; exact hm)
            (defaultFence_startsWith _)] at h
          dsimp only at h
          simp only [Option.some.injEq, Prod.mk.injEq] at h
          obtain ⟨hout, hrest2, henv2⟩ := h
          subst hrest2
          refine ⟨?_, rfl⟩
          rw [← hout]
          rw [stripIdAttrs_append, stripIdAttrs_append, stripIdAttrs_append,
            stripIdAttrs_append]
          rw [stripIdAttrs_single_lit, stripIdAttrs_single_lit,
            stripIdAttrs_single_lit, attrs_setAttrs,
            strip_renderAttrsChunks_set _ _ ha, strip_wrapSpans_join,
            content_setAttrs, plainRule_fence t rest.head? hty2]
        | none =>
          rw [addLineNumber_unspanned t rest env hcont hm] at h
          dsimp only at h
          rw [runRule_fence _ _ _ hty2] at h
          rw [wrapFenced_pre_noMap _ _ _ hm (defaultFence_startsWith t)] at h
          exact absurd h (by simp)
      · by_cases hty3 : t.type = "directive" ∨ t.type = "directive_error"
        · have hov : overrideRules.contains t.type = true := by
            rcases hty3 with h1 | h1 <;> rw [h1] <;> decide
          unfold renderStep at h
          rw [if_pos hov] at h
          cases hm : t.map with
          | some s =>
            rw [addLineNumber_spanned t rest env s hcont hm] at h
            dsimp only at h
            rw [runRule_directive _ _ _ (by
              rw [type_setAttrs]; exact hty3)] at h
            dsimp only at h
            simp only [Option.some.injEq, Prod.mk.injEq] at h
            obtain ⟨hout, hrest2, henv2⟩ := h
            subst hrest2
            refine ⟨?_, rfl⟩
            rw [← hout]
            unfold directiveNewRule
            rw [strip_spliceAt, attrs_setAttrs,
              strip_renderAttrsChunks_set _ _ ha,
              defaultDirectiveRule_setAttrs,
              plainRule_directive t rest.head? hty3]
          | none =>
            rw [addLineNumber_unspanned t rest env hcont hm] at h
            dsimp only at h
            rw [runRule_directive _ _ _ hty3] at h
            dsimp only at h
            simp only [Option.some.injEq, Prod.mk.injEq] at h
            obtain ⟨hout, hrest2, henv2⟩ := h
            subst hrest2
            refine ⟨?_, rfl⟩
            rw [← hout]
            unfold directiveNewRule
            rw [strip_spliceAt, strip_renderAttrsChunks _ ha,
              plainRule_directive t rest.head? hty3]
        · have hn3 : ¬ t.type = "directive" := fun hd => hty3 (Or.inl hd)
          have hn4 : ¬ t.type = "directive_error" := fun hd => hty3 (Or.inr hd)
          by_cases hov : overrideRules.contains t.type = true
          · have hn5 : ¬ t.type = "softbreak" := by
              intro hs
              rw [hs] at hov
              exact absurd hov (by decide)
            unfold renderStep at h
            rw [if_pos hov] at h
            cases hm : t.map with
            | some s =>
              rw [addLineNumber_spanned t rest env s hcont hm] at h
              dsimp only at h
              rw [runRule_other _ _ _ (by rw [type_setAttrs]; exact hty1)
                (by rw [type_setAttrs]; exact hty2)
                (by rw [type_setAttrs]; exact hn3)
                (by rw [type_setAttrs]; exact hn4)
                (by rw [type_setAttrs]; exact hn5)] at h
              dsimp only at h
              simp only [Option.some.injEq, Prod.mk.injEq] at h
              obtain ⟨hout, hrest2, henv2⟩ := h
              subst hrest2
              refine ⟨?_, rfl⟩
              rw [← hout, strip_renderTokenChunks_set t rest.head? _ ha,
                plainRule_other t rest.head? hty1 hty2 hn3 hn4 hn5]
            | none =>
              rw [addLineNumber_unspanned t rest env hcont hm] at h
              dsimp only at h
              rw [runRule_other _ _ _ hty1 hty2 hn3 hn4 hn5] at h
              dsimp only at h
              simp only [Option.some.injEq, Prod.mk.injEq] at h
              obtain ⟨hout, hrest2, henv2⟩ := h
              subst hrest2
              refine ⟨?_, rfl⟩
              rw [← hout, strip_renderTokenChunks t rest.head? ha,
                plainRule_other t rest.head? hty1 hty2 hn3 hn4 hn5]
          · unfold renderStep at h
            rw [if_neg hov] at h
            by_cases hty5 : t.type = "softbreak"
            · rw [runRule_softbreak _ _ _ hty5] at h
              dsimp only at h
              simp only [Option.some.injEq, Prod.mk.injEq] at h
              obtain ⟨hout, hrest2, henv2⟩ := h
              subst hrest2
              refine ⟨?_, rfl⟩
              rw [← hout, plainRule_softbreak t rest.head? hty5]
              exact stripIdAttrs_single_lit "\n"
            · rw [runRule_other _ _ _ hty1 hty2 hn3 hn4 hty5] at h
              dsimp only at h
              simp only [Option.some.injEq, Prod.mk.injEq] at h
              obtain ⟨hout, hrest2, henv2⟩ := h
              subst hrest2
              refine ⟨?_, rfl⟩
              rw [← hout, strip_renderTokenChunks t rest.head? ha,
                plainRule_other t rest.head? hty1 hty2 hn3 hn4 hty5]

/-! ### The annotation layer is strictly additive: full pass -/

theorem all_congr_of_map_eq {α β : Type} (f : α → β) (q : α → Bool)
    (hq : ∀ c d, f c = f d → q c = q d) :
    ∀ (cs ds : List α), cs.map f = ds.map f → cs.all q = ds.all q := by
  intro cs
  induction cs with
  | nil =>
    intro ds h
    cases ds with
    | nil => rfl
    | cons d ds2 => simp at h
  | cons c cs2 ih =>
    intro ds h
    cases ds with
    | nil => simp at h
    | cons d ds2 =>
      simp only [List.map_cons, List.cons.injEq] at h
      simp only [List.all_cons, hq c d h.1, ih ds2 h.2]

theorem strip_renderInlineList :
    ∀ (fuel : Nat) (cs : List Token) (env env2 : Env) (out : List Chunk),
      renderInlineList fuel cs env = some (env2, out) →
      cs.all (fun c => c.attrs.all (fun p => ¬ p.1 = SRC_LINE_ID)) = true →
      stripIdAttrs out = plainInlineList cs := by
  intro fuel
  induction fuel with
  | zero =>
    intro cs env env2 out h hc
    cases cs with
    | nil =>
      simp only [renderInlineList, Option.some.injEq, Prod.mk.injEq] at h
      rw [← h.2]
      rfl
    | cons c cs2 => simp [renderInlineList] at h
  | succ fuel ih =>
    intro cs env env2 out h hc
    cases cs with
    | nil =>
      simp only [renderInlineList, Option.some.injEq, Prod.mk.injEq] at h
      rw [← h.2]
      rfl
    | cons c cs2 =>
      simp only [renderInlineList] at h
      cases hs : renderStep c cs2 env with
      | none => rw [hs] at h; exact absurd h (by simp)
      | some y =>
        obtain ⟨out1, rest2, env1⟩ := y
        rw [hs] at h
        dsimp only at h
        cases hrl : renderInlineList fuel rest2 env1 with
        | none => rw [hrl] at h; exact absurd h (by simp)
        | some z =>
          obtain ⟨env3, outs⟩ := z
          rw [hrl] at h
          dsimp only at h
          simp only [Option.some.injEq, Prod.mk.injEq] at h
          obtain ⟨henv, hout⟩ := h
          simp only [List.all_cons] at hc
          rcases Bool.and_eq_true_iff.mp hc with ⟨hc1, hc2⟩
          obtain ⟨hstep, herase⟩ :=
            strip_renderStep c cs2 env out1 rest2 env1 hs hc1
          have hc2b : rest2.all
              (fun c => c.attrs.all (fun p => ¬ p.1 = SRC_LINE_ID)) = true := by
            rw [all_congr_of_map_eq eraseDeep _
              (fun a b hab => by
                obtain ⟨-, -, -, -, hattrs, -, -⟩ := eraseDeep_fields a b hab
                rw [hattrs]) rest2 cs2 herase]
            exact hc2
          rw [← hout, stripIdAttrs_append, hstep,
            ih rest2 env1 env3 outs hrl hc2b,
            plainInlineList_congr rest2 cs2 herase, plainInlineList]

theorem strip_renderTokens :
    ∀ (fuel : Nat) (ts : List Token) (env env2 : Env) (out : List Chunk),
      renderTokens fuel ts env = some (env2, out) →
      attrsCleanList ts = true →
      stripIdAttrs out = plainTokens ts := by
  intro fuel
  induction fuel with
  | zero =>
    intro ts env env2 out h hc
    cases ts with
    | nil =>
      simp only [renderTokens, Option.some.injEq, Prod.mk.injEq] at h
      rw [← h.2]
      rfl
    | cons t rest => simp [renderTokens] at h
  | succ fuel ih =>
    intro ts env env2 out h hc
    cases ts with
    | nil =>
      simp only [renderTokens, Option.some.injEq, Prod.mk.injEq] at h
      rw [← h.2]
      rfl
    | cons t rest =>
      simp only [renderTokens] at h
      simp only [attrsCleanList, List.all_cons] at hc
      rcases Bool.and_eq_true_iff.mp hc with ⟨hct, hcrest⟩
      by_cases hin : t.type = "inline"
      · rw [if_pos hin] at h
        cases hch : t.children with
        | none => rw [hch] at h; exact absurd h (by simp)
        | some cs =>
          rw [hch] at h
          dsimp only at h
          cases hil : renderInlineList cs.length cs env with
          | none => rw [hil] at h; exact absurd h (by simp)
          | some y =>
            obtain ⟨env1, out1⟩ := y
            rw [hil] at h
            dsimp only at h
            cases hrt : renderTokens fuel rest env1 with
            | none => rw [hrt] at h; exact absurd h (by simp)
            | some z =>
              obtain ⟨env3, outs⟩ := z
              rw [hrt] at h
              dsimp only at h
              simp only [Option.some.injEq, Prod.mk.injEq] at h
              obtain ⟨henv, hout⟩ := h
              have hcs : cs.all
                  (fun c => c.attrs.all (fun p => ¬ p.1 = SRC_LINE_ID))
                  = true := by
                rw [attrsCleanTok] at hct
                rcases Bool.and_eq_true_iff.mp hct with ⟨-, h2⟩
                rw [hch] at h2
                simpa using h2
              rw [← hout, stripIdAttrs_append,
                strip_renderInlineList cs.length cs env env1 out1 hil hcs,
                ih rest env1 env3 outs hrt hcrest,
                plainTokens, if_pos hin, hch]
      · rw [if_neg hin] at h
        cases hs : renderStep t rest env with
        | none => rw [hs] at h; exact absurd h (by simp)
        | some y =>
          obtain ⟨out1, rest2, env1⟩ := y
          rw [hs] at h
          dsimp only at h
          cases hrt : renderTokens fuel rest2 env1 with
          | none => rw [hrt] at h; exact absurd h (by simp)
          | some z =>
            obtain ⟨env3, outs⟩ := z
            rw [hrt] at h
            dsimp only at h
            simp only [Option.some.injEq, Prod.mk.injEq] at h
            obtain ⟨henv, hout⟩ := h
            have hca : t.attrs.all (fun p => ¬ p.1 = SRC_LINE_ID) = true := by
              rw [attrsCleanTok] at hct
              exact (Bool.and_eq_true_iff.mp hct).1
            obtain ⟨hstep, herase⟩ :=
              strip_renderStep t rest env out1 rest2 env1 hs hca
            have hcrest2 : attrsCleanList rest2 = true := by
              rw [attrsCleanList_congr rest2 rest herase]
              exact hcrest
            rw [← hout, stripIdAttrs_append, hstep,
              ih rest2 env1 env3 outs hrt hcrest2,
              plainTokens_congr rest2 rest herase,
              plainTokens, if_neg hin]

/-! ### Lemmas: Line Map entries are never removed -/

theorem lineMapPreserved_refl (m : List (Int × String)) :
    lineMapPreserved m m := fun _ hl => hl

theorem lineMapPreserved_trans {m1 m2 m3 : List (Int × String)}
    (h1 : lineMapPreserved m1 m2) (h2 : lineMapPreserved m2 m3) :
    lineMapPreserved m1 m3 := fun l hl => h2 l (h1 l hl)

theorem lineMapPreserved_set (m : List (Int × String)) (k : Int) (v : String) :
    lineMapPreserved m (mapSet m k v) := fun l hl =>
  jsGet_set_isSome m k l v hl

theorem addLineNumber_lineMap_mono (t : Token) (rest : List Token) (env : Env)
    (t2 : Token) (rest2 : List Token) (env2 : Env)
    (h : addLineNumberToTokens t rest env = some (t2, rest2, env2)) :
    lineMapPreserved env.lineMap env2.lineMap := by
  by_cases hcont : inlineContainers.contains t.type = true
  · obtain ⟨-, henv, -⟩ :=
      addLineNumber_container t rest env (t2, rest2, env2) hcont h
    dsimp only at henv
    rw [henv]
    exact lineMapPreserved_refl _
  · cases hm : t.map with
    | some s =>
      rw [addLineNumber_spanned t rest env s hcont hm] at h
      simp only [Option.some.injEq, Prod.mk.injEq] at h
      obtain ⟨-, -, henv⟩ := h
      rw [← henv]
      exact lineMapPreserved_set _ _ _
    | none =>
      rw [addLineNumber_unspanned t rest env hcont hm] at h
      simp only [Option.some.injEq, Prod.mk.injEq] at h
      obtain ⟨-, -, henv⟩ := h
      rw [← henv]
      exact lineMapPreserved_refl _

theorem wrapLines_lineMap_mono (L : Int) :
    ∀ (lines : List String) (i : Nat) (env : Env),
      lineMapPreserved env.lineMap (wrapLines L lines i env).2.lineMap := by
  intro lines
  induction lines with
  | nil => intro i env; exact lineMapPreserved_refl _
  | cons l rest ih =>
    intro i env
    simp only [wrapLines]
    exact lineMapPreserved_trans
      (lineMapPreserved_set env.lineMap (L + (i : Int) + 1)
        (Nat.repr env.nextId))
      (ih (i + 1) ⟨env.startLine, env.chunkId,
        mapSet env.lineMap (L + (i : Int) + 1) (Nat.repr env.nextId),
        env.nextId + 1⟩)

theorem wrapFenced_lineMap_mono (d : String) (t : Token) (env : Env)
    (out : List Chunk) (env2 : Env)
    (h : wrapFencedLinesInSpan d t env = some (out, env2)) :
    lineMapPreserved env.lineMap env2.lineMap := by
  by_cases hs : strStartsWith d "<pre" = true
  · cases hm : t.map with
    | none =>
      rw [wrapFenced_pre_noMap d t env hm hs] at h
      exact absurd h (by simp)
    | some s =>
      rw [wrapFenced_pre d t env s hm hs] at h
      simp only [Option.some.injEq, Prod.mk.injEq] at h
      obtain ⟨-, henv⟩ := h
      rw [← henv]
      exact wrapLines_lineMap_mono _ _ 0 env
  · have hs2 : strStartsWith d "<pre" = false := by
      cases hb : strStartsWith d "<pre"
      · rfl
      · exact absurd hb hs
    rw [wrapFenced_nonPre d t env hs2] at h
    simp only [Option.some.injEq, Prod.mk.injEq] at h
    obtain ⟨-, henv⟩ := h
    rw [← henv]
    exact lineMapPreserved_refl _

theorem runRule_lineMap_mono (t : Token) (next : Option Token) (env : Env)
    (out : List Chunk) (env2 : Env)
    (h : runRule t next env = some (out, env2)) :
    lineMapPreserved env.lineMap env2.lineMap := by
  by_cases h1 : t.type = "text"
  · rw [runRule_text t next env h1] at h
    simp only [Option.some.injEq, Prod.mk.injEq] at h
    rw [← h.2]
    exact lineMapPreserved_refl _
  · by_cases h2 : t.type = "fence"
    · rw [runRule_fence t next env h2] at h
      exact wrapFenced_lineMap_mono _ t env out env2 h
    · by_cases h3 : t.type = "directive" ∨ t.type = "directive_error"
      · rw [runRule_directive t next env h3] at h
        simp only [Option.some.injEq, Prod.mk.injEq] at h
        rw [← h.2]
        exact lineMapPreserved_refl _
      · have h3a : ¬ t.type = "directive" := fun hd => h3 (Or.inl hd)
        have h3b : ¬ t.type = "directive_error" := fun hd => h3 (Or.inr hd)
        by_cases h4 : t.type = "softbreak"
        · rw [runRule_softbreak t next env h4] at h
          simp only [Option.some.injEq, Prod.mk.injEq] at h
          rw [← h.2]
          exact lineMapPreserved_refl _
        · rw [runRule_other t next env h1 h2 h3a h3b h4] at h
          simp only [Option.some.injEq, Prod.mk.injEq] at h
          rw [← h.2]
          exact lineMapPreserved_refl _

theorem renderStep_lineMap_mono (t : Token) (rest : List Token) (env : Env)
    (out : List Chunk) (rest2 : List Token) (env2 : Env)
    (h : renderStep t rest env = some (out, rest2, env2)) :
    lineMapPreserved env.lineMap env2.lineMap := by
  unfold renderStep at h
  by_cases hov : overrideRules.contains t.type = true
  · rw [if_pos hov] at h
    cases hal : addLineNumberToTokens t rest env with
    | none => rw [hal] at h; exact absurd h (by simp)
    | some x =>
      obtain ⟨t2, restx, envx⟩ := x
      rw [hal] at h
      dsimp only at h
      cases hrr : runRule t2 restx.head? envx with
      | none => rw [hrr] at h; exact absurd h (by simp)
      | some y =>
        obtain ⟨out1, env3⟩ := y
        rw [hrr] at h
        dsimp only at h
        simp only [Option.some.injEq, Prod.mk.injEq] at h
        obtain ⟨-, -, henv⟩ := h
        rw [← henv]
        exact lineMapPreserved_trans
          (addLineNumber_lineMap_mono t rest env t2 restx envx hal)
          (runRule_lineMap_mono t2 restx.head? envx out1 env3 hrr)
  · rw [if_neg hov] at h
    cases hrr : runRule t rest.head? env with
    | none => rw [hrr] at h; exact absurd h (by simp)
    | some y =>
      obtain ⟨out1, env3⟩ := y
      rw [hrr] at h
      dsimp only at h
      simp only [Option.some.injEq, Prod.mk.injEq] at h
      obtain ⟨-, -, henv⟩ := h
      rw [← henv]
      exact runRule_lineMap_mono t rest.head? env out1 env3 hrr

theorem renderInlineList_lineMap_mono :
    ∀ (fuel : Nat) (cs : List Token) (env env2 : Env) (out : List Chunk),
      renderInlineList fuel cs env = some (env2, out) →
      lineMapPreserved env.lineMap env2.lineMap := by
  intro fuel
  induction fuel with
  | zero =>
    intro cs env env2 out h
    cases cs with
    | nil =>
      simp only [renderInlineList, Option.some.injEq, Prod.mk.injEq] at h
      rw [← h.1]
      exact lineMapPreserved_refl _
    | cons c cs2 => simp [renderInlineList] at h
  | succ fuel ih =>
    intro cs env env2 out h
    cases cs with
    | nil =>
      simp only [renderInlineList, Option.some.injEq, Prod.mk.injEq] at h
      rw [← h.1]
      exact lineMapPreserved_refl _
    | cons c cs2 =>
      simp only [renderInlineList] at h
      cases hs : renderStep c cs2 env with
      | none => rw [hs] at h; exact absurd h (by simp)
      | some y =>
        obtain ⟨out1, rest2, env1⟩ := y
        rw [hs] at h
        dsimp only at h
        cases hrl : renderInlineList fuel rest2 env1 with
        | none => rw [hrl] at h; exact absurd h (by simp)
        | some z =>
          obtain ⟨env3, outs⟩ := z
          rw [hrl] at h
          dsimp only at h
          simp only [Option.some.injEq, Prod.mk.injEq] at h
          obtain ⟨henv, -⟩ := h
          rw [← henv]
          exact lineMapPreserved_trans
            (renderStep_lineMap_mono c cs2 env out1 rest2 env1 hs)
            (ih rest2 env1 env3 outs hrl)

theorem renderTokens_lineMap_mono :
    ∀ (fuel : Nat) (ts : List Token) (env env2 : Env) (out : List Chunk),
      renderTokens fuel ts env = some (env2, out) →
      lineMapPreserved env.lineMap env2.lineMap := by
  intro fuel
  induction fuel with
  | zero =>
    intro ts env env2 out h
    cases ts with
    | nil =>
      simp only [renderTokens, Option.some.injEq, Prod.mk.injEq] at h
      rw [← h.1]
      exact lineMapPreserved_refl _
    | cons t rest => simp [renderTokens] at h
  | succ fuel ih =>
    intro ts env env2 out h
    cases ts with
    | nil =>
      simp only [renderTokens, Option.some.injEq, Prod.mk.injEq] at h
      rw [← h.1]
      exact lineMapPreserved_refl _
    | cons t rest =>
      simp only [renderTokens] at h
      by_cases hin : t.type = "inline"
      · rw [if_pos hin] at h
        cases hch : t.children with
        | none => rw [hch] at h; exact absurd h (by simp)
        | some cs =>
          rw [hch] at h
          dsimp only at h
          cases hil : renderInlineList cs.length cs env with
          | none => rw [hil] at h; exact absurd h (by simp)
          | some y =>
            obtain ⟨env1, out1⟩ := y
            rw [hil] at h
            dsimp only at h
            cases hrt : renderTokens fuel rest env1 with
            | none => rw [hrt] at h; exact absurd h (by simp)
            | some z =>
              obtain ⟨env3, outs⟩ := z
              rw [hrt] at h
              dsimp only at h
              simp only [Option.some.injEq, Prod.mk.injEq] at h
              obtain ⟨henv, -⟩ := h
              rw [← henv]
              exact lineMapPreserved_trans
                (renderInlineList_lineMap_mono cs.length cs env env1 out1 hil)
                (ih rest env1 env3 outs hrt)
      · rw [if_neg hin] at h
        cases hs : renderStep t rest env with
        | none => rw [hs] at h; exact absurd h (by simp)
        | some y =>
          obtain ⟨out1, rest2, env1⟩ := y
          rw [hs] at h
          dsimp only at h
          cases hrt : renderTokens fuel rest2 env1 with
          | none => rw [hrt] at h; exact absurd h (by simp)
          | some z =>
            obtain ⟨env3, outs⟩ := z
            rw [hrt] at h
            dsimp only at h
            simp only [Option.some.injEq, Prod.mk.injEq] at h
            obtain ⟨henv, -⟩ := h
            rw [← henv]
            exact lineMapPreserved_trans
              (renderStep_lineMap_mono t rest env out1 rest2 env1 hs)
              (ih rest2 env1 env3 outs hrt)

/-! ### Remaining helper lemmas -/

theorem splitNl_ne_nil : ∀ (cs : List Char), splitNl cs ≠ [] := by
  intro cs
  cases cs with
  | nil => simp [splitNl]
  | cons c rest =>
    simp only [splitNl]
    cases splitNl rest with
    | nil => simp
    | cons l ls => by_cases h : c = '\n' <;> simp [h]

theorem splitOnNl_length_pos (s : String) : 1 ≤ (splitOnNl s).length := by
  rw [splitOnNl, List.length_map]
  cases hs : splitNl s.data with
  | nil => exact absurd hs (splitNl_ne_nil s.data)
  | cons l ls => simp

theorem idAttr_mem_renderAttrsChunks (attrs : List (String × String))
    (id : String) :
    Chunk.idAttr id ∈ renderAttrsChunks (attrSet attrs SRC_LINE_ID id) := by
  rw [attrSet, jsSet]
  by_cases h : attrs.any (fun p => p.1 = SRC_LINE_ID) = true
  · rw [if_pos h]
    rcases List.any_eq_true.mp h with ⟨p, hp, hp2⟩
    have hp2b : p.1 = SRC_LINE_ID := by simpa using hp2
    simp only [renderAttrsChunks]
    refine List.mem_map.mpr ⟨(SRC_LINE_ID, id), ?_, by simp⟩
    refine List.mem_map.mpr ⟨p, hp, ?_⟩
    rw [if_pos hp2b]
  · rw [if_neg h]
    simp only [renderAttrsChunks]
    refine List.mem_map.mpr ⟨(SRC_LINE_ID, id), ?_, by simp⟩
    simp

theorem walkChildren_softbreak (m : Option (Nat × Nat)) :
    ∀ (cs : List Token) (k : Nat) (used : Bool) (cs2 : List Token),
      walkChildren m k used cs = some cs2 →
      ∀ (i : Nat) (c : Token), cs.get? i = some c → c.type = "softbreak" →
        cs2.get? i = some c := by
  intro cs
  induction cs with
  | nil => intro k used cs2 h i c hc; simp at hc
  | cons c0 rest ih =>
    intro k used cs2 h i c hc hsb
    simp only [walkChildren] at h
    by_cases h0 : c0.type = "softbreak"
    · rw [if_pos h0] at h
      rcases Option.map_eq_some'.mp h with ⟨rest2, hw, rfl⟩
      cases i with
      | zero => simpa using hc
      | succ j =>
        simp only [List.get?_cons_succ] at hc ⊢
        exact ih _ _ _ hw j c hc hsb
    · rw [if_neg h0] at h
      by_cases hu : used = true
      · rw [hu] at h
        simp only [if_true] at h
        rcases Option.map_eq_some'.mp h with ⟨rest2, hw, rfl⟩
        cases i with
        | zero =>
          simp only [List.get?_cons_zero, Option.some.injEq] at hc
          subst hc
          rfl
        | succ j =>
          simp only [List.get?_cons_succ] at hc ⊢
          exact ih _ _ _ hw j c hc hsb
      · have hu2 : used = false := by
          cases used
          · rfl
          · exact absurd rfl hu
        rw [hu2] at h
        simp only [Bool.false_eq_true, if_false] at h
        cases m with
        | none => simp at h
        | some s =>
          rcases Option.map_eq_some'.mp h with ⟨rest2, hw, rfl⟩
          cases i with
          | zero =>
            simp only [List.get?_cons_zero, Option.some.injEq] at hc
            subst hc
            exact absurd hsb h0
          | succ j =>
            simp only [List.get?_cons_succ] at hc ⊢
            exact ih _ _ _ hw j c hc hsb

/-! ### Minted identifiers are pairwise distinct: decimal representations -/

theorem toDigitsCore_append :
    ∀ (fuel n : Nat) (ds : List Char),
      Nat.toDigitsCore 10 fuel n ds = Nat.toDigitsCore 10 fuel n [] ++ ds := by
  intro fuel
  induction fuel with
  | zero => intro n ds; rfl
  | succ f ih =>
    intro n ds
    simp only [Nat.toDigitsCore]
    by_cases h : n / 10 = 0
    · rw [if_pos h, if_pos h]
      rfl
    · rw [if_neg h, if_neg h]
      rw [ih (n / 10) (Nat.digitChar (n % 10) :: ds),
        ih (n / 10) [Nat.digitChar (n % 10)]]
      simp

theorem toDigitsCore_fuel :
    ∀ (n f1 f2 : Nat), n < f1 → n < f2 →
      Nat.toDigitsCore 10 f1 n [] = Nat.toDigitsCore 10 f2 n [] := by
  intro n
  induction n using Nat.strong_induction_on with
  | _ n ih =>
    intro f1 f2 h1 h2
    cases f1 with
    | zero => exact absurd h1 (by omega)
    | succ g1 =>
      cases f2 with
      | zero => exact absurd h2 (by omega)
      | succ g2 =>
        simp only [Nat.toDigitsCore]
        by_cases h : n / 10 = 0
        · rw [if_pos h, if_pos h]
        · rw [if_neg h, if_neg h]
          rw [toDigitsCore_append g1 (n / 10),
            toDigitsCore_append g2 (n / 10)]
          have hlt : n / 10 < n := by omega
          rw [ih (n / 10) hlt g1 g2 (by omega) (by omega)]

theorem toDigits_step (n : Nat) :
    Nat.toDigits 10 n =
      if n < 10 then [Nat.digitChar n]
      else Nat.toDigits 10 (n / 10) ++ [Nat.digitChar (n % 10)] := by
  rw [Nat.toDigits]
  simp only [Nat.toDigitsCore]
  by_cases h : n / 10 = 0
  · rw [if_pos h, if_pos (by omega : n < 10)]
    have hmod : n % 10 = n := Nat.mod_eq_of_lt (by omega)
    rw [hmod]
  · rw [if_neg h, if_neg (by omega : ¬ n < 10)]
    rw [toDigitsCore_append]
    congr 1
    rw [Nat.toDigits]
    exact toDigitsCore_fuel (n / 10) n (n / 10 + 1) (by omega) (by omega)

theorem toDigits_ne_nil (n : Nat) : Nat.toDigits 10 n ≠ [] := by
  rw [toDigits_step]
  by_cases h : n < 10
  · rw [if_pos h]; simp
  · rw [if_neg h]; simp

theorem digitChar_inj_lt (a b : Nat) (ha : a < 10) (hb : b < 10)
    (h : Nat.digitChar a = Nat.digitChar b) : a = b := by
  have key : ∀ x : Fin 10, ∀ y : Fin 10,
      Nat.digitChar x.val = Nat.digitChar y.val → x = y := by decide
  exact congrArg Fin.val (key ⟨a, ha⟩ ⟨b, hb⟩ h)

theorem toDigits_inj :
    ∀ (a b : Nat), Nat.toDigits 10 a = Nat.toDigits 10 b → a = b := by
  intro a
  induction a using Nat.strong_induction_on with
  | _ a ih =>
    intro b h
    rw [toDigits_step a, toDigits_step b] at h
    by_cases ha : a < 10
    · by_cases hb : b < 10
      · rw [if_pos ha, if_pos hb] at h
        simp only [List.cons.injEq, and_true] at h
        exact digitChar_inj_lt a b ha hb h
      · rw [if_pos ha, if_neg hb] at h
        have hlen := congrArg List.length h
        have hpos : 0 < (Nat.toDigits 10 (b / 10)).length :=
          List.length_pos.mpr (toDigits_ne_nil (b / 10))
        simp only [List.length_singleton, List.length_append] at hlen
        omega
    · by_cases hb : b < 10
      · rw [if_neg ha, if_pos hb] at h
        have hlen := congrArg List.length h
        have hpos : 0 < (Nat.toDigits 10 (a / 10)).length :=
          List.length_pos.mpr (toDigits_ne_nil (a / 10))
        simp only [List.length_singleton, List.length_append] at hlen
        omega
      · rw [if_neg ha, if_neg hb] at h
        obtain ⟨h3, h4⟩ := List.append_inj' h (by simp)
        have hmod : a % 10 = b % 10 := by
          apply digitChar_inj_lt _ _ (Nat.mod_lt a (by omega))
            (Nat.mod_lt b (by omega))
          simpa using h4
        have hdiv : a / 10 = b / 10 := ih (a / 10) (by omega) (b / 10) h3
        omega

theorem natRepr_inj (a b : Nat) (h : Nat.repr a = Nat.repr b) : a = b :=
  toDigits_inj a b (congrArg String.data h)

/-! ### Counting identifier occurrences in the output -/

theorem countId_nil (id : String) : countId id [] = 0 := rfl

theorem countId_append (id : String) (a b : List Chunk) :
    countId id (a ++ b) = countId id a + countId id b := by
  simp [countId, List.filter_append]

theorem countId_cons_lit (id s : String) (cs : List Chunk) :
    countId id (Chunk.lit s :: cs) = countId id cs := by
  simp [countId, List.filter_cons]

theorem countId_cons_id (id v : String) (cs : List Chunk) :
    countId id (Chunk.idAttr v :: cs) =
      (if v = id then 1 else 0) + countId id cs := by
  by_cases h : v = id <;> simp [countId, List.filter_cons, h] <;> omega

theorem countId_renderAttrsChunks_clean (id : String)
    (attrs : List (String × String))
    (h : attrs.all (fun p => ¬ p.1 = SRC_LINE_ID) = true) :
    countId id (renderAttrsChunks attrs) = 0 := by
  induction attrs with
  | nil => rfl
  | cons kv rest ih =>
    rw [List.all_cons] at h
    rcases Bool.and_eq_true_iff.mp h with ⟨h1, h2⟩
    have hne : ¬ kv.1 = SRC_LINE_ID := by simpa using h1
    simp only [renderAttrsChunks, List.map_cons]
    rw [if_neg hne, countId_cons_lit]
    rw [renderAttrsChunks] at ih
    exact ih h2

theorem countId_renderAttrsChunks_set (id : String)
    (attrs : List (String × String)) (v : String)
    (h : attrs.all (fun p => ¬ p.1 = SRC_LINE_ID) = true) :
    countId id (renderAttrsChunks (attrSet attrs SRC_LINE_ID v)) =
      if v = id then 1 else 0 := by
  rw [attrSet_fresh attrs v h, renderAttrsChunks_append, countId_append,
    countId_renderAttrsChunks_clean id attrs h, renderAttrsChunks_idSingle,
    countId_cons_id, countId_nil]
  simp

theorem emitsIds_lit (s : String) (a : Nat) : emitsIds [Chunk.lit s] a a := by
  intro m
  rw [countId_cons_lit, countId_nil, if_neg (by omega)]

theorem emitsIds_set_attrs (attrs : List (String × String)) (n : Nat)
    (h : attrs.all (fun p => ¬ p.1 = SRC_LINE_ID) = true) :
    emitsIds (renderAttrsChunks (attrSet attrs SRC_LINE_ID (Nat.repr n)))
      n (n + 1) := by
  intro m
  rw [countId_renderAttrsChunks_set _ _ _ h]
  by_cases hm : m = n
  · subst hm
    rw [if_pos rfl, if_pos (by omega)]
  · rw [if_neg (fun he => hm (natRepr_inj n m he).symm), if_neg (by omega)]

theorem emitsIds_append (o1 o2 : List Chunk) (a b c : Nat)
    (h1 : emitsIds o1 a b) (h2 : emitsIds o2 b c)
    (hab : a ≤ b) (hbc : b ≤ c) : emitsIds (o1 ++ o2) a c := by
  intro m
  rw [countId_append, h1 m, h2 m]
  split_ifs <;> omega

theorem countId_spliceAt (id : String) (html : String) (extra : List Chunk) :
    countId id (spliceAt html extra) = countId id extra := by
  obtain ⟨pre, post, he, -⟩ := spliceAt_parts html extra
  rw [he]
  simp [countId_append, countId_cons_lit, countId_nil]

theorem countId_textRule (id : String) (t : Token) :
    countId id (textRule t) = countId id (renderAttrsChunks t.attrs) := by
  simp [textRule, countId_append, countId_cons_lit, countId_nil]

theorem countId_renderTokenChunks (id : String) (t : Token)
    (next : Option Token) :
    countId id (renderTokenChunks t next) =
      countId id (renderAttrsChunks t.attrs) := by
  simp [renderTokenChunks, countId_append, countId_cons_lit, countId_nil]

theorem countId_joinSep (id : String) :
    ∀ (ls : List (List Chunk)),
      countId id (joinSep [Chunk.lit "\n"] ls) =
        (ls.map (fun l => countId id l)).sum := by
  intro ls
  induction ls with
  | nil => rfl
  | cons x tail ih =>
    cases tail with
    | nil => simp [joinSep, countId_nil]
    | cons y rest =>
      rw [joinSep, countId_append, countId_append, countId_cons_lit,
        countId_nil, ih]
      simp

theorem countId_wrapSpans (m : Nat) :
    ∀ (lines : List String) (n : Nat),
      countId (Nat.repr m) (joinSep [Chunk.lit "\n"] (wrapSpans lines n)) =
        if n ≤ m ∧ m < n + lines.length then 1 else 0 := by
  intro lines
  induction lines with
  | nil =>
    intro n
    rw [wrapSpans, if_neg (by simp only [List.length_nil, Nat.add_zero]; omega)]
    rfl
  | cons l rest ih =>
    intro n
    rw [wrapSpans, countId_joinSep]
    simp only [List.map_cons, List.sum_cons]
    rw [← countId_joinSep, ih (n + 1)]
    rw [countId_cons_lit, countId_cons_id, countId_cons_lit, countId_cons_lit,
      countId_cons_lit, countId_nil]
    simp only [List.length_cons]
    by_cases hm : m = n
    · subst hm
      rw [if_pos rfl]
      split_ifs <;> omega
    · rw [if_neg (fun he => hm (natRepr_inj n m he).symm)]
      split_ifs <;> omega

theorem emitsIds_wrapSpans (lines : List String) (n : Nat) :
    emitsIds (joinSep [Chunk.lit "\n"] (wrapSpans lines n)) n
      (n + lines.length) := by
  intro m
  exact countId_wrapSpans m lines n

theorem emitsIds_fenceOut (attrs : List (String × String))
    (lines : List String) (n : Nat)
    (h : attrs.all (fun p => ¬ p.1 = SRC_LINE_ID) = true) :
    emitsIds ([Chunk.lit "<pre><code"]
      ++ renderAttrsChunks (attrSet attrs SRC_LINE_ID (Nat.repr n))
      ++ [Chunk.lit ">"]
      ++ joinSep [Chunk.lit "\n"] (wrapSpans lines (n + 1))
      ++ [Chunk.lit "</code></pre>\n"]) n (n + 1 + lines.length) := by
  refine emitsIds_append _ _ n (n + 1 + lines.length) (n + 1 + lines.length)
    ?_ (emitsIds_lit _ (n + 1 + lines.length)) (by omega) (Nat.le_refl _)
  refine emitsIds_append _ _ n (n + 1) (n + 1 + lines.length)
    ?_ (emitsIds_wrapSpans lines (n + 1)) (by omega) (by omega)
  refine emitsIds_append _ _ n (n + 1) (n + 1)
    ?_ (emitsIds_lit _ (n + 1)) (by omega) (Nat.le_refl _)
  exact emitsIds_append _ _ n n (n + 1) (emitsIds_lit _ n)
    (emitsIds_set_attrs attrs n h) (Nat.le_refl n) (by omega)

/-! ### The Line Map invariant: entries come from already-minted counters -/

theorem mapIdsIn_nil (a b : Nat) : mapIdsIn [] a b := by
  intro l id hget
  rw [mapGet, jsGet_nil] at hget
  exact absurd hget (by simp)

theorem mapIdsIn_set (mp : List (Int × String)) (l : Int) (a b b' k' : Nat)
    (h : mapIdsIn mp a b) (h1 : a ≤ k') (h2 : k' < b') (h3 : b ≤ b') :
    mapIdsIn (mapSet mp l (Nat.repr k')) a b' := by
  intro l2 id hget
  by_cases hl : l2 = l
  · subst hl
    rw [mapSet, mapGet, jsGet_set_self] at hget
    exact ⟨k', h1, h2, (Option.some.inj hget).symm⟩
  · rw [mapSet, mapGet, jsGet_set_ne mp l l2 _ hl] at hget
    obtain ⟨k, hk1, hk2, hk3⟩ := h l2 id hget
    exact ⟨k, hk1, by omega, hk3⟩

theorem wrapLines_mapIdsIn (L : Int) :
    ∀ (lines : List String) (i : Nat) (env : Env) (a : Nat),
      a ≤ env.nextId → mapIdsIn env.lineMap a env.nextId →
      mapIdsIn (wrapLines L lines i env).2.lineMap a
        (env.nextId + lines.length) := by
  intro lines
  induction lines with
  | nil =>
    intro i env a ha h
    simpa [wrapLines] using h
  | cons l rest ih =>
    intro i env a ha h
    simp only [wrapLines, List.length_cons]
    have h2 : mapIdsIn (mapSet env.lineMap (L + (i : Int) + 1)
        (Nat.repr env.nextId)) a (env.nextId + 1) :=
      mapIdsIn_set env.lineMap (L + (i : Int) + 1) a env.nextId
        (env.nextId + 1) env.nextId h ha (by omega) (by omega)
    have h3 := ih (i + 1)
      ⟨env.startLine, env.chunkId,
        mapSet env.lineMap (L + (i : Int) + 1) (Nat.repr env.nextId),
        env.nextId + 1⟩ a (show a ≤ env.nextId + 1 by omega) h2
    have harith : env.nextId + 1 + rest.length =
        env.nextId + (rest.length + 1) := by omega
    rw [harith] at h3
    exact h3

/-! ### One render step mints fresh identifiers, each emitted exactly once -/

theorem ids_renderStep (t : Token) (rest : List Token) (env : Env)
    (out : List Chunk) (rest2 : List Token) (env2 : Env)
    (h : renderStep t rest env = some (out, rest2, env2))
    (ha : t.attrs.all (fun p => ¬ p.1 = SRC_LINE_ID) = true) :
    env.nextId ≤ env2.nextId ∧ emitsIds out env.nextId env2.nextId ∧
      ∀ a, a ≤ env.nextId → mapIdsIn env.lineMap a env.nextId →
        mapIdsIn env2.lineMap a env2.nextId := by
  by_cases hcont : inlineContainers.contains t.type = true
  · have hmem : t.type ∈ inlineContainers := by simpa using hcont
    simp only [inlineContainers, List.mem_cons, List.mem_singleton,
      List.not_mem_nil, or_false] at hmem
    have hov : overrideRules.contains t.type = true := by
      rcases hmem with h1 | h1 <;> rw [h1] <;> decide
    have hn1 : ¬ t.type = "text" := by
      rcases hmem with h1 | h1 <;> rw [h1] <;> decide
    have hn2 : ¬ t.type = "fence" := by
      rcases hmem with h1 | h1 <;> rw [h1] <;> decide
    have hn3 : ¬ t.type = "directive" := by
      rcases hmem with h1 | h1 <;> rw [h1] <;> decide
    have hn4 : ¬ t.type = "directive_error" := by
      rcases hmem with h1 | h1 <;> rw [h1] <;> decide
    have hn5 : ¬ t.type = "softbreak" := by
      rcases hmem with h1 | h1 <;> rw [h1] <;> decide
    unfold renderStep at h
    rw [if_pos hov] at h
    cases hal : addLineNumberToTokens t rest env with
    | none => rw [hal] at h; exact absurd h (by simp)
    | some x =>
      obtain ⟨t2, restx, envx⟩ := x
      rw [hal] at h
      dsimp only at h
      obtain ⟨ht2, henvx, succ, rest', cs, cs2, hrest, hcs, hw, hrestx⟩ :=
        addLineNumber_container t rest env (t2, restx, envx) hcont hal
      dsimp only at ht2 henvx hrestx
      rw [ht2, henvx, hrestx] at h
      rw [runRule_other t _ env hn1 hn2 hn3 hn4 hn5] at h
      dsimp only at h
      simp only [Option.some.injEq, Prod.mk.injEq] at h
      obtain ⟨hout, hrest2, henv2⟩ := h
      rw [← hout, ← henv2]
      refine ⟨Nat.le_refl _, ?_, fun a ha2 hm2 => hm2⟩
      intro m
      rw [countId_renderTokenChunks, countId_renderAttrsChunks_clean _ _ ha,
        if_neg (by omega)]
  · by_cases hty1 : t.type = "text"
    · have hov : overrideRules.contains t.type = true := by rw [hty1]; decide
      unfold renderStep at h
      rw [if_pos hov] at h
      cases hm : t.map with
      | some s =>
        rw [addLineNumber_spanned t rest env s hcont hm] at h
        dsimp only at h
        rw [runRule_text _ _ _ (by rw [type_setAttrs]; exact hty1)] at h
        dsimp only at h
        simp only [Option.some.injEq, Prod.mk.injEq] at h
        obtain ⟨hout, hrest2, henv2⟩ := h
        rw [← hout, ← henv2]
        refine ⟨by dsimp only; omega, ?_, ?_⟩
        · intro m
          dsimp only
          rw [countId_textRule, attrs_setAttrs]
          exact emitsIds_set_attrs t.attrs env.nextId ha m
        · intro a ha2 hm2
          dsimp only
          exact mapIdsIn_set _ _ _ _ _ _ hm2 ha2 (by omega) (by omega)
      | none =>
        rw [addLineNumber_unspanned t rest env hcont hm] at h
        dsimp only at h
        rw [runRule_text _ _ _ hty1] at h
        dsimp only at h
        simp only [Option.some.injEq, Prod.mk.injEq] at h
        obtain ⟨hout, hrest2, henv2⟩ := h
        rw [← hout, ← henv2]
        refine ⟨Nat.le_refl _, ?_, fun a ha2 hm2 => hm2⟩
        intro m
        rw [countId_textRule, countId_renderAttrsChunks_clean _ _ ha,
          if_neg (by omega)]
    · by_cases hty2 : t.type = "fence"
      · have hov : overrideRules.contains t.type = true := by
          rw [hty2]; decide
        unfold renderStep at h
        rw [if_pos hov] at h
        cases hm : t.map with
        | some s =>
          rw [addLineNumber_spanned t rest env s hcont hm] at h
          dsimp only at h
          rw [runRule_fence _ _ _ (by rw [type_setAttrs]; exact hty2)] at h
          rw [wrapFenced_pre _ _ _ s (by rw [map_setAttrs]; exact hm)
            (defaultFence_startsWith _)] at h
          dsimp only at h
          simp only [Option.some.injEq, Prod.mk.injEq] at h
          obtain ⟨hout, hrest2, henv2⟩ := h
          rw [← hout, ← henv2]
          refine ⟨?_, ?_, ?_⟩
          · rw [wrapLines_nextId]
            dsimp only
            omega
          · rw [wrapLines_nextId]
            dsimp only
            rw [attrs_setAttrs, content_setAttrs]
            exact emitsIds_fenceOut t.attrs _ env.nextId ha
          · intro a ha2 hm2
            rw [wrapLines_nextId]
            refine wrapLines_mapIdsIn _ _ 0 _ a ?_ ?_
            · dsimp only
              omega
            · dsimp only
              exact mapIdsIn_set _ _ _ _ _ _ hm2 ha2 (by omega) (by omega)
        | none =>
          rw [addLineNumber_unspanned t rest env hcont hm] at h
          dsimp only at h
          rw [runRule_fence _ _ _ hty2] at h
          rw [wrapFenced_pre_noMap _ _ _ hm (defaultFence_startsWith t)] at h
          exact absurd h (by simp)
      · by_cases hty3 : t.type = "directive" ∨ t.type = "directive_error"
        · have hov : overrideRules.contains t.type = true := by
            rcases hty3 with h1 | h1 <;> rw [h1] <;> decide
          unfold renderStep at h
          rw [if_pos hov] at h
          cases hm : t.map with
          | some s =>
            rw [addLineNumber_spanned t rest env s hcont hm] at h
            dsimp only at h
            rw [runRule_directive _ _ _ (by
              rw [type_setAttrs]; exact hty3)] at h
            dsimp only at h
            simp only [Option.some.injEq, Prod.mk.injEq] at h
            obtain ⟨hout, hrest2, henv2⟩ := h
            rw [← hout, ← henv2]
            refine ⟨by dsimp only; omega, ?_, ?_⟩
            · intro m
              dsimp only
              rw [directiveNewRule, countId_spliceAt, attrs_setAttrs]
              exact emitsIds_set_attrs t.attrs env.nextId ha m
            · intro a ha2 hm2
              dsimp only
              exact mapIdsIn_set _ _ _ _ _ _ hm2 ha2 (by omega) (by omega)
          | none =>
            rw [addLineNumber_unspanned t rest env hcont hm] at h
            dsimp only at h
            rw [runRule_directive _ _ _ hty3] at h
            dsimp only at h
            simp only [Option.some.injEq, Prod.mk.injEq] at h
            obtain ⟨hout, hrest2, henv2⟩ := h
            rw [← hout, ← henv2]
            refine ⟨Nat.le_refl _, ?_, fun a ha2 hm2 => hm2⟩
            intro m
            rw [directiveNewRule, countId_spliceAt,
              countId_renderAttrsChunks_clean _ _ ha, if_neg (by omega)]
        · have hn3 : ¬ t.type = "directive" := fun hd => hty3 (Or.inl hd)
          have hn4 : ¬ t.type = "directive_error" := fun hd => hty3 (Or.inr hd)
          by_cases hov : overrideRules.contains t.type = true
          · have hn5 : ¬ t.type = "softbreak" := by
              intro hs
              rw [hs] at hov
              exact absurd hov (by decide)
            unfold renderStep at h
            rw [if_pos hov] at h
            cases hm : t.map with
            | some s =>
              rw [addLineNumber_spanned t rest env s hcont hm] at h
              dsimp only at h
              rw [runRule_other _ _ _ (by rw [type_setAttrs]; exact hty1)
                (by rw [type_setAttrs]; exact hty2)
                (by rw [type_setAttrs]; exact hn3)
                (by rw [type_setAttrs]; exact hn4)
                (by rw [type_setAttrs]; exact hn5)] at h
              dsimp only at h
              simp only [Option.some.injEq, Prod.mk.injEq] at h
              obtain ⟨hout, hrest2, henv2⟩ := h
              rw [← hout, ← henv2]
              refine ⟨by dsimp only; omega, ?_, ?_⟩
              · intro m
                dsimp only
                rw [countId_renderTokenChunks, attrs_setAttrs]
                exact emitsIds_set_attrs t.attrs env.nextId ha m
              · intro a ha2 hm2
                dsimp only
                exact mapIdsIn_set _ _ _ _ _ _ hm2 ha2 (by omega) (by omega)
            | none =>
              rw [addLineNumber_unspanned t rest env hcont hm] at h
              dsimp only at h
              rw [runRule_other _ _ _ hty1 hty2 hn3 hn4 hn5] at h
              dsimp only at h
              simp only [Option.some.injEq, Prod.mk.injEq] at h
              obtain ⟨hout, hrest2, henv2⟩ := h
              rw [← hout, ← henv2]
              refine ⟨Nat.le_refl _, ?_, fun a ha2 hm2 => hm2⟩
              intro m
              rw [countId_renderTokenChunks,
                countId_renderAttrsChunks_clean _ _ ha, if_neg (by omega)]
          · unfold renderStep at h
            rw [if_neg hov] at h
            by_cases hty5 : t.type = "softbreak"
            · rw [runRule_softbreak _ _ _ hty5] at h
              dsimp only at h
              simp only [Option.some.injEq, Prod.mk.injEq] at h
              obtain ⟨hout, hrest2, henv2⟩ := h
              rw [← hout, ← henv2]
              exact ⟨Nat.le_refl _, emitsIds_lit "\n" env.nextId,
                fun a ha2 hm2 => hm2⟩
            · rw [runRule_other _ _ _ hty1 hty2 hn3 hn4 hty5] at h
              dsimp only at h
              simp only [Option.some.injEq, Prod.mk.injEq] at h
              obtain ⟨hout, hrest2, henv2⟩ := h
              rw [← hout, ← henv2]
              refine ⟨Nat.le_refl _, ?_, fun a ha2 hm2 => hm2⟩
              intro m
              rw [countId_renderTokenChunks,
                countId_renderAttrsChunks_clean _ _ ha, if_neg (by omega)]

/-! ### Every Line Map entry of a pass is carried by exactly one element -/

theorem ids_renderInlineList :
    ∀ (fuel : Nat) (cs : List Token) (env env2 : Env) (out : List Chunk),
      renderInlineList fuel cs env = some (env2, out) →
      cs.all (fun c => c.attrs.all (fun p => ¬ p.1 = SRC_LINE_ID)) = true →
      env.nextId ≤ env2.nextId ∧ emitsIds out env.nextId env2.nextId ∧
        ∀ a, a ≤ env.nextId → mapIdsIn env.lineMap a env.nextId →
          mapIdsIn env2.lineMap a env2.nextId := by
  intro fuel
  induction fuel with
  | zero =>
    intro cs env env2 out h hc
    cases cs with
    | nil =>
      simp only [renderInlineList, Option.some.injEq, Prod.mk.injEq] at h
      obtain ⟨h1, h2⟩ := h
      rw [← h1, ← h2]
      exact ⟨Nat.le_refl _,
        fun m => by rw [countId_nil, if_neg (by omega)],
        fun a _ hm2 => hm2⟩
    | cons c cs2 => simp [renderInlineList] at h
  | succ fuel ih =>
    intro cs env env2 out h hc
    cases cs with
    | nil =>
      simp only [renderInlineList, Option.some.injEq, Prod.mk.injEq] at h
      obtain ⟨h1, h2⟩ := h
      rw [← h1, ← h2]
      exact ⟨Nat.le_refl _,
        fun m => by rw [countId_nil, if_neg (by omega)],
        fun a _ hm2 => hm2⟩
    | cons c cs2 =>
      simp only [renderInlineList] at h
      cases hs : renderStep c cs2 env with
      | none => rw [hs] at h; exact absurd h (by simp)
      | some y =>
        obtain ⟨out1, rest2, env1⟩ := y
        rw [hs] at h
        dsimp only at h
        cases hrl : renderInlineList fuel rest2 env1 with
        | none => rw [hrl] at h; exact absurd h (by simp)
        | some z =>
          obtain ⟨env3, outs⟩ := z
          rw [hrl] at h
          dsimp only at h
          simp only [Option.some.injEq, Prod.mk.injEq] at h
          obtain ⟨henv, hout⟩ := h
          simp only [List.all_cons] at hc
          rcases Bool.and_eq_true_iff.mp hc with ⟨hc1, hc2⟩
          obtain ⟨-, herase⟩ :=
            strip_renderStep c cs2 env out1 rest2 env1 hs hc1
          have hc2b : rest2.all
              (fun c => c.attrs.all (fun p => ¬ p.1 = SRC_LINE_ID)) = true := by
            rw [all_congr_of_map_eq eraseDeep _
              (fun a b hab => by
                obtain ⟨-, -, -, -, hattrs, -, -⟩ := eraseDeep_fields a b hab
                rw [hattrs]) rest2 cs2 herase]
            exact hc2
          obtain ⟨hle1, hem1, hmap1⟩ :=
            ids_renderStep c cs2 env out1 rest2 env1 hs hc1
          obtain ⟨hle2, hem2, hmap2⟩ := ih rest2 env1 env3 outs hrl hc2b
          rw [← henv, ← hout]
          exact ⟨Nat.le_trans hle1 hle2,
            emitsIds_append out1 outs _ _ _ hem1 hem2 hle1 hle2,
            fun a ha2 hm2 => hmap2 a (Nat.le_trans ha2 hle1)
              (hmap1 a ha2 hm2)⟩

theorem ids_renderTokens :
    ∀ (fuel : Nat) (ts : List Token) (env env2 : Env) (out : List Chunk),
      renderTokens fuel ts env = some (env2, out) →
      attrsCleanList ts = true →
      env.nextId ≤ env2.nextId ∧ emitsIds out env.nextId env2.nextId ∧
        ∀ a, a ≤ env.nextId → mapIdsIn env.lineMap a env.nextId →
          mapIdsIn env2.lineMap a env2.nextId := by
  intro fuel
  induction fuel with
  | zero =>
    intro ts env env2 out h hc
    cases ts with
    | nil =>
      simp only [renderTokens, Option.some.injEq, Prod.mk.injEq] at h
      obtain ⟨h1, h2⟩ := h
      rw [← h1, ← h2]
      exact ⟨Nat.le_refl _,
        fun m => by rw [countId_nil, if_neg (by omega)],
        fun a _ hm2 => hm2⟩
    | cons t rest => simp [renderTokens] at h
  | succ fuel ih =>
    intro ts env env2 out h hc
    cases ts with
    | nil =>
      simp only [renderTokens, Option.some.injEq, Prod.mk.injEq] at h
      obtain ⟨h1, h2⟩ := h
      rw [← h1, ← h2]
      exact ⟨Nat.le_refl _,
        fun m => by rw [countId_nil, if_neg (by omega)],
        fun a _ hm2 => hm2⟩
    | cons t rest =>
      simp only [renderTokens] at h
      simp only [attrsCleanList, List.all_cons] at hc
      rcases Bool.and_eq_true_iff.mp hc with ⟨hct, hcrest⟩
      by_cases hin : t.type = "inline"
      · rw [if_pos hin] at h
        cases hch : t.children with
        | none => rw [hch] at h; exact absurd h (by simp)
        | some cs =>
          rw [hch] at h
          dsimp only at h
          cases hil : renderInlineList cs.length cs env with
          | none => rw [hil] at h; exact absurd h (by simp)
          | some y =>
            obtain ⟨env1, out1⟩ := y
            rw [hil] at h
            dsimp only at h
            cases hrt : renderTokens fuel rest env1 with
            | none => rw [hrt] at h; exact absurd h (by simp)
            | some z =>
              obtain ⟨env3, outs⟩ := z
              rw [hrt] at h
              dsimp only at h
              simp only [Option.some.injEq, Prod.mk.injEq] at h
              obtain ⟨henv, hout⟩ := h
              have hcs : cs.all
                  (fun c => c.attrs.all (fun p => ¬ p.1 = SRC_LINE_ID))
                  = true := by
                rw [attrsCleanTok] at hct
                rcases Bool.and_eq_true_iff.mp hct with ⟨-, h2⟩
                rw [hch] at h2
                simpa using h2
              obtain ⟨hle1, hem1, hmap1⟩ :=
                ids_renderInlineList cs.length cs env env1 out1 hil hcs
              obtain ⟨hle2, hem2, hmap2⟩ := ih rest env1 env3 outs hrt hcrest
              rw [← henv, ← hout]
              exact ⟨Nat.le_trans hle1 hle2,
                emitsIds_append out1 outs _ _ _ hem1 hem2 hle1 hle2,
                fun a ha2 hm2 => hmap2 a (Nat.le_trans ha2 hle1)
                  (hmap1 a ha2 hm2)⟩
      · rw [if_neg hin] at h
        cases hs : renderStep t rest env with
        | none => rw [hs] at h; exact absurd h (by simp)
        | some y =>
          obtain ⟨out1, rest2, env1⟩ := y
          rw [hs] at h
          dsimp only at h
          cases hrt : renderTokens fuel rest2 env1 with
          | none => rw [hrt] at h; exact absurd h (by simp)
          | some z =>
            obtain ⟨env3, outs⟩ := z
            rw [hrt] at h
            dsimp only at h
            simp only [Option.some.injEq, Prod.mk.injEq] at h
            obtain ⟨henv, hout⟩ := h
            have hca : t.attrs.all (fun p => ¬ p.1 = SRC_LINE_ID) = true := by
              rw [attrsCleanTok] at hct
              exact (Bool.and_eq_true_iff.mp hct).1
            obtain ⟨-, herase⟩ :=
              strip_renderStep t rest env out1 rest2 env1 hs hca
            have hcrest2 : attrsCleanList rest2 = true := by
              rw [attrsCleanList_congr rest2 rest herase]
              exact hcrest
            obtain ⟨hle1, hem1, hmap1⟩ :=
              ids_renderStep t rest env out1 rest2 env1 hs hca
            obtain ⟨hle2, hem2, hmap2⟩ := ih rest2 env1 env3 outs hrt hcrest2
            rw [← henv, ← hout]
            exact ⟨Nat.le_trans hle1 hle2,
              emitsIds_append out1 outs _ _ _ hem1 hem2 hle1 hle2,
              fun a ha2 hm2 => hmap2 a (Nat.le_trans ha2 hle1)
                (hmap1 a ha2 hm2)⟩

theorem render_ids (ts : List Token) (env env2 : Env) (out : List Chunk)
    (h : render ts env = some (env2, out))
    (hc : attrsCleanList ts = true) (hm : env.lineMap = []) :
    ∀ (l : Int) (id : String), mapGet env2.lineMap l = some id →
      countId id out = 1 := by
  obtain ⟨hle, hem, hmap⟩ := ids_renderTokens ts.length ts env env2 out h hc
  have h0 : mapIdsIn env.lineMap env.nextId env.nextId := by
    rw [hm]
    exact mapIdsIn_nil _ _
  have h2 := hmap env.nextId (Nat.le_refl _) h0
  intro l id hget
  obtain ⟨k, hk1, hk2, hk3⟩ := h2 l id hget
  rw [hk3, hem k, if_pos ⟨hk1, hk2⟩]

/-! ### The claims -/

/-- C1: for every token that carries a known span and is not an
inline-bearing container, annotating it writes
`lineMap[span.start + env.startLine − (1 if chunkId ≠ 0 else 0)]` to a fresh
identifier and attaches that same identifier to the token's attribute bag
under the reserved key; in particular a paragraph with relative start line 0
rendered as chunk 0 with `startLine = 0` maps to absolute line 0, and
rendered as chunk 1 with `startLine = 10` maps to absolute line 9. -/
theorem C1_spanned_annotation :
    (∀ (t : Token) (rest : List Token) (env : Env) (s e : Nat),
      ¬ inlineContainers.contains t.type = true → t.map = some (s, e) →
      ∃ t2 env2, addLineNumberToTokens t rest env = some (t2, rest, env2) ∧
        absLine s env = (s : Int) + (env.startLine : Int)
          - (if env.chunkId ≠ 0 then 1 else 0) ∧
        mapGet env2.lineMap (absLine s env) = some (Nat.repr env.nextId) ∧
        attrGet t2.attrs SRC_LINE_ID = some (Nat.repr env.nextId)) ∧
    lineIdAt (render exPara env0) 0 = some "0" ∧
    lineIdAt (render exPara env10) 9 = some "0" := by
  refine ⟨?_, by decide, by decide⟩
  intro t rest env s e hc hm
  refine ⟨t.setAttrs (attrSet t.attrs SRC_LINE_ID (Nat.repr env.nextId)), _,
    addLineNumber_spanned t rest env (s, e) hc hm, rfl, ?_, ?_⟩
  · exact jsGet_set_self env.lineMap (absLine s env) (Nat.repr env.nextId)
  · rw [attrs_setAttrs]
    exact jsGet_set_self t.attrs SRC_LINE_ID (Nat.repr env.nextId)

/-- Witness for C1: a fence token spanning `[5, 10)` annotated in a fresh
single-chunk context. -/
theorem C1_spanned_annotation_witness :
    ∃ t2 env2,
      addLineNumberToTokens (mkFence 5 10 "x\n") [] env0 =
        some (t2, [], env2) ∧
      absLine 5 env0 = (5 : Int) + ((env0.startLine : Nat) : Int)
        - (if env0.chunkId ≠ 0 then 1 else 0) ∧
      mapGet env2.lineMap (absLine 5 env0) = some (Nat.repr env0.nextId) ∧
      attrGet t2.attrs SRC_LINE_ID = some (Nat.repr env0.nextId) :=
  C1_spanned_annotation.1 (mkFence 5 10 "x\n") [] env0 5 10 (by decide)
    (by decide)

/-- C2: for every `paragraph_open`/`heading_open` token with span start `s`,
the walk over the following inline token's children assigns the derived
one-line span `[s + k, s + k + 1)` exactly to the first non-line-break child
of each unclaimed visual line `k` (line breaks increment the counter and
clear the claimed flag), mints no identifier and writes no Line Map entry
during the walk itself; the three-line paragraph `"Line1\nLine2\nLine3"` at
`startLine = 0`, `chunkId = 0` yields 3 distinct identifiers mapped to lines
0, 1, 2, each anchored to that line's leading text run. -/
theorem C2_inline_walk :
    (∀ (sp : Nat × Nat) (cs cs2 : List Token),
      walkChildren (some sp) 0 false cs = some cs2 →
      ∀ (i : Nat) (c : Token), cs.get? i = some c →
        cs2.get? i = some (
          if claimedAt false cs i c then
            c.setMap (some (sp.1 + sbBefore cs i, sp.1 + sbBefore cs i + 1))
          else c)) ∧
    (∀ (t : Token) (rest : List Token) (env : Env)
       (r : Token × List Token × Env),
      inlineContainers.contains t.type = true →
      addLineNumberToTokens t rest env = some r →
      r.2.2 = env) ∧
    lineIdAt (render exPara3 env0) 0 = some "0" ∧
    lineIdAt (render exPara3 env0) 1 = some "1" ∧
    lineIdAt (render exPara3 env0) 2 = some "2" ∧
    outputOf (render exPara3 env0) =
      some ("<p><span data-line-id=\"0\">Line1</span>\n"
        ++ "<span data-line-id=\"1\">Line2</span>\n"
        ++ "<span data-line-id=\"2\">Line3</span></p>\n") := by
  refine ⟨?_, ?_, by decide, by decide, by decide, by decide⟩
  · intro sp cs cs2 hw i c hc
    have h := walkChildren_spec sp cs 0 false cs2 hw i c hc
    simpa only [Nat.add_zero] using h
  · intro t rest env r hcont hal
    exact (addLineNumber_container t rest env r hcont hal).2.1

/-- Witness for C2: annotating a concrete paragraph-open token leaves the
environment untouched (the walk writes no Line Map entry and mints no
identifier). -/
theorem C2_inline_walk_witness :
    ∃ r, addLineNumberToTokens (mkParaOpen 0)
        [mkInline [mkText "Hello"], mkParaClose] env0 = some r ∧
      r.2.2 = env0 := by
  cases hal : addLineNumberToTokens (mkParaOpen 0)
      [mkInline [mkText "Hello"], mkParaClose] env0 with
  | none => exact absurd (congrArg Option.isSome hal) (by decide)
  | some r => exact ⟨r, rfl, C2_inline_walk.2.1 _ _ _ r (by decide) hal⟩

/-- C9: the annotator's inline-container branch unconditionally reads the
token at `idx + 1` and iterates its `children`; when the container is last
in the stream, or its successor has no children, the error branch is
reached. -/
theorem C9_inline_requires_successor :
    (∀ (t : Token) (env : Env), inlineContainers.contains t.type = true →
      addLineNumberToTokens t [] env = none) ∧
    (∀ (t succ : Token) (rest : List Token) (env : Env),
      inlineContainers.contains t.type = true → succ.children = none →
      addLineNumberToTokens t (succ :: rest) env = none) ∧
    render [mkParaOpen 0] env0 = none ∧
    render [mkParaOpen 0, mkParaClose] env0 = none := by
  refine ⟨?_, ?_, by decide, by decide⟩
  · exact fun t env hc => addLineNumber_container_nil t env hc
  · exact fun t succ rest env hc hcs =>
      addLineNumber_container_noChildren t succ rest env hc hcs

/-- Witness for C9: a paragraph-open token at the end of the stream makes
the annotator fail. -/
theorem C9_inline_requires_successor_witness :
    addLineNumberToTokens (mkParaOpen 0) [] env0 = none :=
  C9_inline_requires_successor.1 (mkParaOpen 0) env0 (by decide)

/-- C3: for every true verbatim fence, the adapter escapes and splits the
content, discards the trailing segment of the split, wraps each remaining
line `j` in its own span with a fresh identifier recorded in the Line Map at
`absLine + j + 1`, and touches no Line Map key outside that range; in
particular a verbatim block with 4 content lines whose opening fence is
source line 5 (single chunk, `startLine = 0`) yields 4 distinct identifiers
mapped to lines 6, 7, 8, 9, one per physical content line and none on the
delimiter lines 5 and 10. -/
theorem C3_fence_lines :
    (∀ (t : Token) (env : Env) (s e : Nat), t.map = some (s, e) →
      ∃ out env2,
        wrapFencedLinesInSpan (defaultFence t) t env = some (out, env2) ∧
        dropLastIdx (splitOnNl (escapeHtml t.content)) =
          (splitOnNl (escapeHtml t.content)).dropLast ∧
        out = [Chunk.lit "<pre><code"] ++ renderAttrsChunks t.attrs
          ++ [Chunk.lit ">"]
          ++ joinSep [Chunk.lit "\n"]
              (wrapSpans ((splitOnNl (escapeHtml t.content)).dropLast)
                env.nextId)
          ++ [Chunk.lit "</code></pre>\n"] ∧
        (∀ j : Nat,
          j < ((splitOnNl (escapeHtml t.content)).dropLast).length →
          mapGet env2.lineMap (absLine s env + (j : Int) + 1) =
            some (Nat.repr (env.nextId + j))) ∧
        (∀ l : Int, (l ≤ absLine s env ∨
            absLine s env +
              (((splitOnNl (escapeHtml t.content)).dropLast).length : Int)
              < l) →
          mapGet env2.lineMap l = mapGet env.lineMap l)) ∧
    wrapFencedLinesInSpan (defaultFence exFence4) exFence4 env0 =
      some ([Chunk.lit "<pre><code", Chunk.lit ">",
          Chunk.lit "<span", Chunk.idAttr "0", Chunk.lit ">", Chunk.lit "l1",
            Chunk.lit "</span>", Chunk.lit "\n",
          Chunk.lit "<span", Chunk.idAttr "1", Chunk.lit ">", Chunk.lit "l2",
            Chunk.lit "</span>", Chunk.lit "\n",
          Chunk.lit "<span", Chunk.idAttr "2", Chunk.lit ">", Chunk.lit "l3",
            Chunk.lit "</span>", Chunk.lit "\n",
          Chunk.lit "<span", Chunk.idAttr "3", Chunk.lit ">", Chunk.lit "l4",
            Chunk.lit "</span>",
          Chunk.lit "</code></pre>\n"],
        ⟨0, 0, [(6, "0"), (7, "1"), (8, "2"), (9, "3")], 4⟩) := by
  constructor
  · intro t env s e hm
    have hmain := wrapFenced_pre (defaultFence t) t env (s, e) hm
      (defaultFence_startsWith t)
    rw [dropLastIdx_eq_dropLast] at hmain
    refine ⟨_, _, hmain, dropLastIdx_eq_dropLast _, rfl, ?_, ?_⟩
    · intro j hj
      have h := wrapLines_get (absLine s env)
        ((splitOnNl (escapeHtml t.content)).dropLast) 0 env j hj
      have hk : absLine s env + ((0 : Nat) : Int) + 1 + (j : Int) =
          absLine s env + (j : Int) + 1 := by push_cast; ring
      rw [hk] at h
      exact h
    · intro l hl
      refine wrapLines_frame (absLine s env)
        ((splitOnNl (escapeHtml t.content)).dropLast) 0 env l ?_
      push_cast
      omega
  · decide

/-- Witness for C3: the 4-line verbatim block at source line 5. -/
theorem C3_fence_lines_witness :
    exFence4.map = some (5, 10) ∧
    ∃ out env2,
      wrapFencedLinesInSpan (defaultFence exFence4) exFence4 env0 =
        some (out, env2) ∧
      mapGet env2.lineMap (absLine 5 env0 + (0 : Int) + 1) =
        some (Nat.repr (env0.nextId + 0)) := by
  refine ⟨by decide, ?_⟩
  obtain ⟨out, env2, hmain, -, -, hget, -⟩ :=
    C3_fence_lines.1 exFence4 env0 5 10 (by decide)
  exact ⟨out, env2, hmain, hget 0 (by decide)⟩

/-- C4 counterexample: stripping all identifier attributes from an annotated
render of a one-line paragraph leaves the text-wrapping span element behind,
so the result is not byte-identical to the unmodified pipeline's markup. -/
theorem C4_roundtrip_counterexample :
    (render exPara env0).isSome = true ∧
    strippedOf (render exPara env0) = some "<p><span>Hello</span></p>\n" ∧
    unmodifiedTokens exPara = "<p>Hello</p>\n" ∧
    ¬ strippedOf (render exPara env0) = some (unmodifiedTokens exPara) := by
  exact ⟨by decide, by decide, by decide, by decide⟩

/-- C4 (amended): annotation is strictly additive — for every stream none of
whose tokens already carry the reserved attribute, stripping all identifier
attributes from the annotated output reproduces byte-identical markup to the
pipeline with the span-wrapping adapters and directive patcher installed but
no identifiers attached (not the unmodified pipeline: the wrapper elements
remain); and for every such stream rendered in a fresh pass (empty initial
Line Map), every `(line, id)` pair of the resulting Line Map is carried by
exactly one element of the output. -/
theorem C4_strip_additive :
    (∀ (ts : List Token) (env env2 : Env) (out : List Chunk),
      render ts env = some (env2, out) → attrsCleanList ts = true →
      stripIdAttrs out = plainTokens ts) ∧
    (∀ (ts : List Token) (env env2 : Env) (out : List Chunk),
      render ts env = some (env2, out) → attrsCleanList ts = true →
      env.lineMap = [] →
      ∀ (l : Int) (id : String), mapGet env2.lineMap l = some id →
        countId id out = 1) := by
  exact ⟨fun ts env env2 out h hc =>
      strip_renderTokens ts.length ts env env2 out h hc,
    fun ts env env2 out h hc hm => render_ids ts env env2 out h hc hm⟩

/-- Witness for C4: the mixed stream renders; stripping its identifier
attributes yields exactly the adapter-only markup, and the Line Map entry
for line 0 is carried by exactly one element of the output. -/
theorem C4_strip_additive_witness :
    attrsCleanList exMixed = true ∧ env0.lineMap = [] ∧
    strippedOf (render exMixed env0) = some (plainTokens exMixed) ∧
    (∃ e out, render exMixed env0 = some (e, out) ∧
      mapGet e.lineMap 0 = some "0" ∧ countId "0" out = 1) := by
  refine ⟨by decide, rfl, ?_, ?_⟩
  · cases hr : render exMixed env0 with
    | none => exact absurd (congrArg Option.isSome hr) (by decide)
    | some r =>
      obtain ⟨env2, out⟩ := r
      exact congrArg some
        (C4_strip_additive.1 exMixed env0 env2 out hr (by decide))
  · cases hr : render exMixed env0 with
    | none => exact absurd (congrArg Option.isSome hr) (by decide)
    | some r =>
      obtain ⟨env2, out⟩ := r
      have hmapv : mapGet env2.lineMap 0 = some "0" := by
        have he : env2 = ((render exMixed env0).getD (env0, [])).1 := by
          rw [hr]
          rfl
        rw [he]
        decide
      exact ⟨env2, out, rfl, hmapv,
        C4_strip_additive.2 exMixed env0 env2 out hr (by decide) rfl
          0 "0" hmapv⟩

/-- C5: two spanned tokens claiming the same absolute line each still mint a
fresh identifier and perform a Line Map write; after both writes the Line
Map holds exactly the later identifier for that line, and no Line Map entry
is ever removed during a pass. -/
theorem C5_last_write_wins :
    (∀ (t1 t2 : Token) (rest1 rest2 : List Token) (env : Env)
       (s1 s2 : Nat × Nat),
      ¬ inlineContainers.contains t1.type = true →
      ¬ inlineContainers.contains t2.type = true →
      t1.map = some s1 → t2.map = some s2 →
      absLine s2.1 env = absLine s1.1 env →
      ∃ t1a env1 t2a env2,
        addLineNumberToTokens t1 rest1 env = some (t1a, rest1, env1) ∧
        addLineNumberToTokens t2 rest2 env1 = some (t2a, rest2, env2) ∧
        env1.nextId = env.nextId + 1 ∧ env2.nextId = env.nextId + 2 ∧
        attrGet t1a.attrs SRC_LINE_ID = some (Nat.repr env.nextId) ∧
        attrGet t2a.attrs SRC_LINE_ID = some (Nat.repr (env.nextId + 1)) ∧
        mapGet env1.lineMap (absLine s1.1 env) =
          some (Nat.repr env.nextId) ∧
        mapGet env2.lineMap (absLine s1.1 env) =
          some (Nat.repr (env.nextId + 1)) ∧
        lineMapPreserved env.lineMap env2.lineMap) ∧
    (∀ (fuel : Nat) (ts : List Token) (env env2 : Env) (out : List Chunk),
      renderTokens fuel ts env = some (env2, out) →
      lineMapPreserved env.lineMap env2.lineMap) := by
  constructor
  · intro t1 t2 rest1 rest2 env s1 s2 hc1 hc2 hm1 hm2 heq
    refine ⟨_, _, _, _, addLineNumber_spanned t1 rest1 env s1 hc1 hm1,
      addLineNumber_spanned t2 rest2 _ s2 hc2 hm2, rfl, rfl, ?_, ?_, ?_, ?_,
      ?_⟩
    · rw [attrs_setAttrs]
      exact jsGet_set_self t1.attrs SRC_LINE_ID (Nat.repr env.nextId)
    · rw [attrs_setAttrs]
      exact jsGet_set_self t2.attrs SRC_LINE_ID (Nat.repr (env.nextId + 1))
    · exact jsGet_set_self env.lineMap (absLine s1.1 env)
        (Nat.repr env.nextId)
    · rw [← heq]
      exact jsGet_set_self _ (absLine s2.1 _) (Nat.repr (env.nextId + 1))
    · exact lineMapPreserved_trans (lineMapPreserved_set _ _ _)
        (lineMapPreserved_set _ _ _)
  · exact fun fuel ts env env2 out h =>
      renderTokens_lineMap_mono fuel ts env env2 out h

/-- Witness for C5: a fence token and a directive token both starting at
source line 3 in a fresh single-chunk context. -/
theorem C5_last_write_wins_witness :
    ∃ t1a env1 t2a env2,
      addLineNumberToTokens (mkFence 3 5 "x\n") [] env0 =
        some (t1a, [], env1) ∧
      addLineNumberToTokens (mkDirective 3 4 "y") [] env1 =
        some (t2a, [], env2) ∧
      env1.nextId = env0.nextId + 1 ∧ env2.nextId = env0.nextId + 2 ∧
      attrGet t1a.attrs SRC_LINE_ID = some (Nat.repr env0.nextId) ∧
      attrGet t2a.attrs SRC_LINE_ID = some (Nat.repr (env0.nextId + 1)) ∧
      mapGet env1.lineMap (absLine 3 env0) = some (Nat.repr env0.nextId) ∧
      mapGet env2.lineMap (absLine 3 env0) =
        some (Nat.repr (env0.nextId + 1)) ∧
      lineMapPreserved env0.lineMap env2.lineMap :=
  C5_last_write_wins.1 (mkFence 3 5 "x\n") (mkDirective 3 4 "y") [] [] env0
    (3, 5) (3, 4) (by decide) (by decide) (by decide) (by decide) rfl

/-- C6: the directive patcher returns the original rule's output with the
token's current attributes spliced in immediately before the first closing
angle bracket; since the interception layer attaches the identifier first,
the directive's opening tag carries the identifier attribute whose value is
exactly the identifier recorded in the Line Map for that block's line. -/
theorem C6_directive_attrs :
    (∀ (t : Token) (rest : List Token) (env : Env) (s : Nat × Nat)
       (html : String) (i : Nat),
      ¬ inlineContainers.contains t.type = true → t.map = some s →
      html.data.findIdx? (fun c => c = '>') = some i →
      ∃ t2 env2,
        addLineNumberToTokens t rest env = some (t2, rest, env2) ∧
        mapGet env2.lineMap (absLine s.1 env) = some (Nat.repr env.nextId) ∧
        Chunk.idAttr (Nat.repr env.nextId) ∈ renderAttrsChunks t2.attrs ∧
        directiveNewRule html t2 =
          [Chunk.lit (String.mk (html.data.take i))]
            ++ renderAttrsChunks t2.attrs
            ++ [Chunk.lit (String.mk (html.data.drop i))] ∧
        (∀ c ∈ html.data.take i, ¬ c = '>') ∧
        String.mk (html.data.take i) ++ String.mk (html.data.drop i) =
          html) ∧
    outputOf (render [exDirective] env0) =
      some "<aside data-line-id=\"0\">note</aside>\n" ∧
    lineIdAt (render [exDirective] env0) 2 = some "0" := by
  refine ⟨?_, by decide, by decide⟩
  intro t rest env s html i hc hm hidx
  refine ⟨_, _, addLineNumber_spanned t rest env s hc hm,
    jsGet_set_self _ _ _, ?_, ?_, ?_, ?_⟩
  · rw [attrs_setAttrs]
    exact idAttr_mem_renderAttrsChunks t.attrs (Nat.repr env.nextId)
  · unfold directiveNewRule spliceAt
    rw [hidx]
  · intro c hcmem
    obtain ⟨hall, -⟩ := findIdx?_before _ html.data i hidx
    have := hall c hcmem
    simpa using this
  · show String.mk (html.data.take i ++ html.data.drop i) = html
    rw [List.take_append_drop]

/-- Witness for C6: a concrete directive at line 2 spliced into a concrete
original output. -/
theorem C6_directive_attrs_witness :
    ∃ t2 env2,
      addLineNumberToTokens (mkDirective 2 4 "note") [] env0 =
        some (t2, [], env2) ∧
      mapGet env2.lineMap (absLine 2 env0) = some (Nat.repr env0.nextId) ∧
      Chunk.idAttr (Nat.repr env0.nextId) ∈ renderAttrsChunks t2.attrs ∧
      directiveNewRule "<aside>note</aside>\n" t2 =
        [Chunk.lit (String.mk (("<aside>note</aside>\n" : String).data.take 6))]
          ++ renderAttrsChunks t2.attrs
          ++ [Chunk.lit
            (String.mk (("<aside>note</aside>\n" : String).data.drop 6))] ∧
      (∀ c ∈ ("<aside>note</aside>\n" : String).data.take 6, ¬ c = '>') ∧
      String.mk (("<aside>note</aside>\n" : String).data.take 6)
        ++ String.mk (("<aside>note</aside>\n" : String).data.drop 6) =
        "<aside>note</aside>\n" :=
  C6_directive_attrs.1 (mkDirective 2 4 "note") [] env0 (2, 4)
    "<aside>note</aside>\n" 6 (by decide) (by decide) (by decide)

/-- C7: for a fence whose unmodified rule output does not start with the
verbatim prefix `<pre`, the adapter writes no Line Map entries (the
environment is returned unchanged) and only splices the token's attributes
into the wrapper's opening tag, leaving the rest of the output unchanged. -/
theorem C7_nonverbatim_passthrough :
    ∀ (defaultOutput : String) (t : Token) (env : Env),
      strStartsWith defaultOutput "<pre" = false →
      ∃ pre post,
        wrapFencedLinesInSpan defaultOutput t env =
          some ([Chunk.lit pre]
            ++ (Chunk.lit " " :: renderAttrsChunks t.attrs)
            ++ [Chunk.lit post], env) ∧
        pre ++ post = defaultOutput := by
  intro d t env h
  obtain ⟨pre, post, hsp, hpp⟩ :=
    spliceAt_parts d (Chunk.lit " " :: renderAttrsChunks t.attrs)
  exact ⟨pre, post, by rw [wrapFenced_nonPre d t env h, hsp], hpp⟩

/-- Witness for C7: a diagram-like fence output. -/
theorem C7_nonverbatim_passthrough_witness :
    ∃ pre post,
      wrapFencedLinesInSpan "<div>x</div>" (mkFence 0 2 "c") env0 =
        some ([Chunk.lit pre]
          ++ (Chunk.lit " " :: renderAttrsChunks (mkFence 0 2 "c").attrs)
          ++ [Chunk.lit post], env0) ∧
      pre ++ post = "<div>x</div>" :=
  C7_nonverbatim_passthrough "<div>x</div>" (mkFence 0 2 "c") env0 (by decide)

/-- C8: softbreak tokens are never annotated — `"softbreak"` is excluded
from the override list no matter which rules are registered, rendering a
softbreak token neither changes the environment nor mints anything and
produces exactly a newline, and inside the children walk a softbreak child
is returned unchanged (it only advances the visual-line counter). -/
theorem C8_softbreak_never_annotated :
    (∀ (keys : List String),
      ¬ (mkOverrideRules keys).contains "softbreak" = true) ∧
    (∀ (t : Token) (rest : List Token) (env : Env), t.type = "softbreak" →
      renderStep t rest env = some ([Chunk.lit "\n"], rest, env)) ∧
    (∀ (m : Option (Nat × Nat)) (cs : List Token) (k : Nat) (used : Bool)
       (cs2 : List Token) (i : Nat) (c : Token),
      walkChildren m k used cs = some cs2 → cs.get? i = some c →
      c.type = "softbreak" → cs2.get? i = some c) := by
  refine ⟨?_, ?_, ?_⟩
  · intro keys hc
    have hmem : "softbreak" ∈ mkOverrideRules keys := by simpa using hc
    simp only [mkOverrideRules] at hmem
    rcases List.mem_append.mp hmem with h1 | h1
    · have h2 := (List.mem_filter.mp h1).2
      simp [excludeRules] at h2
    · simp at h1
  · intro t rest env hty
    have hov : ¬ overrideRules.contains t.type = true := by
      rw [hty]; decide
    unfold renderStep
    rw [if_neg hov, runRule_softbreak t rest.head? env hty]
  · exact fun m cs k used cs2 i c hw hg hty =>
      walkChildren_softbreak m cs k used cs2 hw i c hg hty

/-- Witness for C8: rendering a concrete softbreak token. -/
theorem C8_softbreak_never_annotated_witness :
    renderStep mkSoftbreak [] env0 = some ([Chunk.lit "\n"], [], env0) :=
  C8_softbreak_never_annotated.2.1 mkSoftbreak [] env0 rfl

/-- C10: the verbatim adapter discards the last segment of the newline split
unconditionally (the indexed filter equals `dropLast`), so for a fence whose
content does not end with a newline the final content line is neither
wrapped in the output nor recorded in the Line Map: concretely, content
`"a\nb"` at line 0 wraps only `"a"`, records only line 1, and line 2 stays
unmapped. -/
theorem C10_fence_drops_last :
    (∀ (l : List String), dropLastIdx l = l.dropLast) ∧
    (∀ (t : Token) (env : Env) (s e : Nat), t.map = some (s, e) →
      ∃ env2,
        wrapFencedLinesInSpan (defaultFence t) t env =
          some ([Chunk.lit "<pre><code"] ++ renderAttrsChunks t.attrs
            ++ [Chunk.lit ">"]
            ++ joinSep [Chunk.lit "\n"]
                (wrapSpans ((splitOnNl (escapeHtml t.content)).dropLast)
                  env.nextId)
            ++ [Chunk.lit "</code></pre>\n"], env2) ∧
        mapGet env2.lineMap
            (absLine s env +
              ((splitOnNl (escapeHtml t.content)).length : Int)) =
          mapGet env.lineMap
            (absLine s env +
              ((splitOnNl (escapeHtml t.content)).length : Int))) ∧
    wrapFencedLinesInSpan (defaultFence exFenceNoNl) exFenceNoNl env0 =
      some ([Chunk.lit "<pre><code", Chunk.lit ">",
        Chunk.lit "<span", Chunk.idAttr "0", Chunk.lit ">", Chunk.lit "a",
        Chunk.lit "</span>", Chunk.lit "</code></pre>\n"],
        ⟨0, 0, [(1, "0")], 1⟩) := by
  refine ⟨fun l => dropLastIdx_eq_dropLast l, ?_, by decide⟩
  intro t env s e hm
  have hmain := wrapFenced_pre (defaultFence t) t env (s, e) hm
    (defaultFence_startsWith t)
  rw [dropLastIdx_eq_dropLast] at hmain
  refine ⟨_, hmain, ?_⟩
  have hpos := splitOnNl_length_pos (escapeHtml t.content)
  have hdl : ((splitOnNl (escapeHtml t.content)).dropLast).length =
      (splitOnNl (escapeHtml t.content)).length - 1 :=
    List.length_dropLast _
  refine wrapLines_frame (absLine s env)
    ((splitOnNl (escapeHtml t.content)).dropLast) 0 env _ ?_
  right
  rw [hdl]
  push_cast
  omega

/-- Witness for C10: the fence whose content lacks a final line break. -/
theorem C10_fence_drops_last_witness :
    exFenceNoNl.map = some (0, 3) ∧
    ∃ env2,
      wrapFencedLinesInSpan (defaultFence exFenceNoNl) exFenceNoNl env0 =
        some ([Chunk.lit "<pre><code"]
          ++ renderAttrsChunks exFenceNoNl.attrs
          ++ [Chunk.lit ">"]
          ++ joinSep [Chunk.lit "\n"]
              (wrapSpans
                ((splitOnNl (escapeHtml exFenceNoNl.content)).dropLast)
                env0.nextId)
          ++ [Chunk.lit "</code></pre>\n"], env2) ∧
      mapGet env2.lineMap
          (absLine 0 env0 +
            ((splitOnNl (escapeHtml exFenceNoNl.content)).length : Int)) =
        mapGet env0.lineMap
          (absLine 0 env0 +
            ((splitOnNl (escapeHtml exFenceNoNl.content)).length : Int)) := by
  refine ⟨by decide, ?_⟩
  exact C10_fence_drops_last.2.1 exFenceNoNl env0 0 3 (by decide)

end MystSourceMap
